import Mathlib

/-!
Verification of the stdin-to-stdout secret redactor: four sequential
global regex substitutions over one text buffer.

The embedding works over `List Char`.  Each of the four patterns has the
shape  literal-part, a greedy nonempty run of non-quote characters
(`[^']+`), and (for rules 1, 2, 4) a literal suffix; rule 3 additionally
has greedy whitespace runs (`\s*`) around its `=`.  For such patterns the
backtracking regex match at a given start position is deterministic: the
greedy run must stop exactly at the next single quote (a shorter run would
leave a non-quote where the pattern demands the quote), and `\s*` must
consume the maximal whitespace run (a shorter run would leave a whitespace
character where `=` or `'` is demanded).  `re.sub` replaces the leftmost
match, resumes after it, and never rescans replacement text; `reSub` below
implements exactly that scan.
-/

namespace Redactor

/-- The single-quote character around which all four patterns pivot. -/
def q : Char := '\''

/-- The characters matched by Python's `\s` on `str` patterns. -/
def wsChars : List Char :=
  ['\t', '\n', '\x0B', '\x0C', '\r', '\x1C', '\x1D', '\x1E', '\x1F', ' ',
   '\x85', '\xA0', '\u1680', '\u2000', '\u2001', '\u2002', '\u2003',
   '\u2004', '\u2005', '\u2006', '\u2007', '\u2008', '\u2009', '\u200A',
   '\u2028', '\u2029', '\u202F', '\u205F', '\u3000']

/-- Python regex `\s` for text patterns. -/
def isWS (c : Char) : Bool := wsChars.contains c

/-- `[^']`: any character other than a single quote (newlines included). -/
def nq (c : Char) : Bool := decide (c ≠ q)

/-- Match a literal: if `l` starts with `p`, return the rest, else `none`. -/
def dropLit : List Char → List Char → Option (List Char)
  | [], l => some l
  | _ :: _, [] => none
  | p :: ps, c :: cs => if c = p then dropLit ps cs else none

/-- Rule 1 pattern text before the secret body. -/
def pre1 : List Char :=
  "anthropicApiKey: process.env.ANTHROPIC_API_KEY || 'sk-ant-".toList

/-- Rule 2 pattern text before the secret body. -/
def pre2 : List Char :=
  "openaiApiKey: process.env.OPENAI_API_KEY || 'sk-proj-".toList

/-- Rule 4 pattern text before the secret body. -/
def pre4 : List Char := "const apiKey = 'sk-proj-".toList

/-- Rule 3 leading literal. -/
def key3 : List Char := "OPENAI_API_KEY".toList

/-- Rule 3 literal between the whitespace run and the secret body. -/
def qsk : List Char := "'sk-proj-".toList

/-- Rule 1 pattern text before its single quote. -/
def pre1A : List Char :=
  "anthropicApiKey: process.env.ANTHROPIC_API_KEY || ".toList

/-- Rule 2 pattern text before its single quote. -/
def pre2A : List Char :=
  "openaiApiKey: process.env.OPENAI_API_KEY || ".toList

/-- Rule 4 pattern text before its single quote. -/
def pre4A : List Char := "const apiKey = ".toList

/-- The Anthropic secret prefix. -/
def skant : List Char := "sk-ant-".toList

/-- The OpenAI secret prefix. -/
def skproj : List Char := "sk-proj-".toList

/-- Anchored matcher for a pattern of the shape
`<pre literal> [^']+ <suf literal>`: the common shape of rules 1, 2 and 4.
The greedy `[^']+` stops exactly at the next quote, so the match at a given
start position is this deterministic computation. -/
def matchLit (pre suf : List Char) (l : List Char) : Option (List Char) :=
  match dropLit pre l with
  | none => none
  | some r =>
    let body := r.takeWhile nq
    if body.isEmpty then none else dropLit suf (r.dropWhile nq)

/-- Matcher for rule 1's pattern
`anthropicApiKey: process\.env\.ANTHROPIC_API_KEY \|\| 'sk-ant-[^']+',`
anchored at the head of the input; returns the text after the match. -/
def match1 : List Char → Option (List Char) := matchLit pre1 (q :: [','])

/-- Matcher for rule 2's pattern
`openaiApiKey: process\.env\.OPENAI_API_KEY \|\| 'sk-proj-[^']+',`
anchored at the head of the input. -/
def match2 : List Char → Option (List Char) := matchLit pre2 (q :: [','])

/-- Matcher for rule 3's pattern `OPENAI_API_KEY\s*=\s*'sk-proj-[^']+`
anchored at the head of the input.  The trailing `[^']+` is greedy and has
nothing after it, so the match ends just before the next quote (or at the
end of the input). -/
def match3 (l : List Char) : Option (List Char) :=
  match dropLit key3 l with
  | none => none
  | some r1 =>
    match dropLit ['='] (r1.dropWhile isWS) with
    | none => none
    | some r2 =>
      match dropLit qsk (r2.dropWhile isWS) with
      | none => none
      | some r3 =>
        let body := r3.takeWhile nq
        if body.isEmpty then none else some (r3.dropWhile nq)

/-- Matcher for rule 4's pattern `const apiKey = 'sk-proj-[^']+';`
anchored at the head of the input. -/
def match4 : List Char → Option (List Char) := matchLit pre4 (q :: [';'])

/-- Rule 1 replacement text. -/
def repl1 : List Char :=
  "anthropicApiKey: process.env.ANTHROPIC_API_KEY || '',".toList

/-- Rule 2 replacement text. -/
def repl2 : List Char :=
  "openaiApiKey: process.env.OPENAI_API_KEY || '',".toList

/-- Rule 3 replacement text. -/
def repl3 : List Char :=
  "OPENAI_API_KEY=os.environ.get('OPENAI_API_KEY', '')".toList

/-- Rule 4 replacement text. -/
def repl4 : List Char :=
  "const apiKey = process.env.OPENAI_API_KEY || '';".toList

/-- The left-to-right substitution scan of `re.sub`, with explicit fuel.
At each position the anchored matcher is tried; on a match the replacement
is emitted and the scan resumes after the matched text (replacement text is
never rescanned), otherwise one character is copied.  All four matchers
consume at least one character, so fuel equal to the input length (as used
by `reSub`) never runs out. -/
def reSubF (m : List Char → Option (List Char)) (r : List Char) :
    Nat → List Char → List Char
  | _, [] => []
  | 0, l => l
  | f + 1, c :: cs =>
    match m (c :: cs) with
    | some rest => r ++ reSubF m r f rest
    | none => c :: reSubF m r f cs

/-- `re.sub pattern replacement input` for one of the four rules. -/
def reSub (m : List Char → Option (List Char)) (r : List Char)
    (l : List Char) : List Char :=
  reSubF m r l.length l

/-- Whether the pattern decided by `m` matches anywhere in `l` (at any
start position). -/
def hasAnyMatch (m : List Char → Option (List Char)) : List Char → Bool
  | [] => (m []).isSome
  | c :: cs => (m (c :: cs)).isSome || hasAnyMatch m cs

/-- The substring consumed by a match of `m` at the head of `l`, if any. -/
def matchedOn (m : List Char → Option (List Char)) (l : List Char) :
    Option (List Char) :=
  match m l with
  | some rest => some (l.take (l.length - rest.length))
  | none => none

/-- The whole program: the four substitutions applied in source order, each
to the output of the previous one. -/
def redact (content : List Char) : List Char :=
  reSub match4 repl4 (reSub match3 repl3 (reSub match2 repl2
    (reSub match1 repl1 content)))

/-- The four rules in application order, as (pattern matcher, replacement)
pairs. -/
def ruleList : List ((List Char → Option (List Char)) × List Char) :=
  [(match1, repl1), (match2, repl2), (match3, repl3), (match4, repl4)]

/-- The whole process: reads a text buffer from stdin and writes the
redacted buffer to stdout.  The environment is passed in to model the
process environment; the program never consults it (`os.environ` appears
only inside replacement *text*). -/
def runProgram (_env : List (String × String)) (stdin : List Char) :
    List Char :=
  redact stdin

/-- Outcome of matching a literal against a finite window of text: a
definite mismatch, the window running out before the literal, or the
literal fully consumed with the window's remainder. -/
inductive LitRes : Type
  | fail : LitRes
  | out : LitRes
  | rest : List Char → LitRes

/-- `dropLit` on a window, distinguishing a definite mismatch from the
window running out. -/
def dropLitE : List Char → List Char → LitRes
  | [], l => .rest l
  | _ :: _, [] => .out
  | p :: ps, c :: cs => if c = p then dropLitE ps cs else .fail

/-- Whether a rule 1/2/4-shaped pattern is guaranteed to fail at the head
of `a ++ w` for every continuation `w`: the decision looks only at `a`. -/
def matchLitSF (pre suf : List Char) (a : List Char) : Bool :=
  match dropLitE pre a with
  | .fail => true
  | .out => false
  | .rest x =>
    match x.dropWhile nq with
    | [] => false
    | d :: ds =>
      if (x.takeWhile nq).isEmpty then true
      else
        match dropLitE suf (d :: ds) with
        | .fail => true
        | _ => false

/-- Whether rule 3's pattern is guaranteed to fail at the head of
`a ++ w` for every continuation `w`. -/
def match3SF (a : List Char) : Bool :=
  match dropLitE key3 a with
  | .fail => true
  | .out => false
  | .rest x1 =>
    match x1.dropWhile isWS with
    | [] => false
    | d :: ds =>
      match dropLitE ['='] (d :: ds) with
      | .fail => true
      | .out => false
      | .rest x2 =>
        match x2.dropWhile isWS with
        | [] => false
        | e :: es =>
          match dropLitE qsk (e :: es) with
          | .fail => true
          | .out => false
          | .rest x3 =>
            match x3 with
            | [] => false
            | f :: _ => decide (f = q)

/-- The relation between an input buffer and the output of one `re.sub`
scan over it: characters at positions where the matcher fails are copied,
a match is replaced by `r` and the scan resumes after the matched text. -/
inductive Scan (m : List Char → Option (List Char)) (r : List Char) :
    List Char → List Char → Prop
  | nil : Scan m r [] []
  | copy (c : Char) (cs t : List Char) : m (c :: cs) = none →
      Scan m r cs t → Scan m r (c :: cs) (c :: t)
  | subst (c : Char) (cs rest t : List Char) : m (c :: cs) = some rest →
      Scan m r rest t → Scan m r (c :: cs) (r ++ t)

/- ======================  Lemma layer  ====================== -/

theorem nq_iff {c : Char} : nq c = true ↔ c ≠ q := by
  simp [nq]

theorem nq_q : nq q = false := by simp [nq]

theorem dropLit_eq_some {p l r : List Char} :
    dropLit p l = some r ↔ l = p ++ r := by
  induction p generalizing l with
  | nil => cases l <;> simp [dropLit]
  | cons x xs ih =>
    cases l with
    | nil => simp [dropLit]
    | cons c cs =>
      by_cases h : c = x
      · subst h
        simp only [dropLit, if_pos rfl, List.cons_append, List.cons.injEq,
          true_and]
        exact ih
      · simp [dropLit, h]

theorem dropLit_self (p r : List Char) : dropLit p (p ++ r) = some r :=
  dropLit_eq_some.mpr rfl

theorem takeWhile_middle {p : Char → Bool} {A : List Char}
    (hA : ∀ c ∈ A, p c = true) {b : Char} (hb : p b = false)
    (B : List Char) : (A ++ b :: B).takeWhile p = A := by
  induction A with
  | nil => simp [List.takeWhile_cons, hb]
  | cons a as ih =>
    have ha : p a = true := hA a (by simp)
    simp only [List.cons_append, List.takeWhile_cons, ha, if_true,
      List.cons.injEq, true_and]
    exact ih fun c hc => hA c (by simp [hc])

theorem dropWhile_middle {p : Char → Bool} {A : List Char}
    (hA : ∀ c ∈ A, p c = true) {b : Char} (hb : p b = false)
    (B : List Char) : (A ++ b :: B).dropWhile p = b :: B := by
  induction A with
  | nil => simp [List.dropWhile_cons, hb]
  | cons a as ih =>
    have ha : p a = true := hA a (by simp)
    simp only [List.cons_append, List.dropWhile_cons, ha, if_true]
    exact ih fun c hc => hA c (by simp [hc])

theorem takeWhile_all {p : Char → Bool} {A : List Char}
    (hA : ∀ c ∈ A, p c = true) : A.takeWhile p = A := by
  induction A with
  | nil => rfl
  | cons a as ih =>
    have ha : p a = true := hA a (by simp)
    simp only [List.takeWhile_cons, ha, if_true, List.cons.injEq, true_and]
    exact ih fun c hc => hA c (by simp [hc])

theorem dropWhile_all {p : Char → Bool} {A : List Char}
    (hA : ∀ c ∈ A, p c = true) : A.dropWhile p = [] := by
  induction A with
  | nil => rfl
  | cons a as ih =>
    have ha : p a = true := hA a (by simp)
    simp only [List.dropWhile_cons, ha, if_true]
    exact ih fun c hc => hA c (by simp [hc])

theorem takeWhile_mem {p : Char → Bool} {A : List Char} :
    ∀ c ∈ A.takeWhile p, p c = true := by
  induction A with
  | nil => simp
  | cons a as ih =>
    by_cases h : p a = true
    · simp only [List.takeWhile_cons, h, if_true, List.mem_cons]
      rintro c (rfl | hc)
      · exact h
      · exact ih c hc
    · simp [List.takeWhile_cons, h]

theorem dropWhile_head_false {p : Char → Bool} {A : List Char} {c : Char}
    {t : List Char} (h : A.dropWhile p = c :: t) : p c = false := by
  induction A with
  | nil => simp [List.dropWhile] at h
  | cons a as ih =>
    by_cases hp : p a = true
    · exact ih (by simpa [List.dropWhile_cons, hp] using h)
    · rw [List.dropWhile_cons, if_neg (by simp [hp])] at h
      cases h
      simpa using hp

/-- Characterization of a `matchLit` success: the input decomposes as the
pattern's literal head, a nonempty quote-free body, the literal suffix and
the returned rest. -/
theorem matchLit_some {pre suf l rest : List Char}
    (h : matchLit pre suf l = some rest) :
    ∃ body : List Char, body ≠ [] ∧ q ∉ body ∧
      l = pre ++ body ++ suf ++ rest := by
  unfold matchLit at h
  cases hd : dropLit pre l with
  | none => rw [hd] at h; exact absurd h (by simp)
  | some r =>
    rw [hd] at h
    simp only at h
    by_cases hb : (r.takeWhile nq).isEmpty
    · rw [if_pos hb] at h; exact absurd h (by simp)
    · rw [if_neg hb] at h
      refine ⟨r.takeWhile nq, by simpa [List.isEmpty_iff] using hb, ?_, ?_⟩
      · intro hq
        have := takeWhile_mem q hq
        simp [nq_q] at this
      · have h1 : l = pre ++ r := dropLit_eq_some.mp hd
        have h2 : r.dropWhile nq = suf ++ rest := dropLit_eq_some.mp h
        have h3 : r = r.takeWhile nq ++ r.dropWhile nq :=
          (List.takeWhile_append_dropWhile nq r).symm
        conv_lhs => rw [h1, h3, h2]
        simp

/-- A `matchLit` match on a canonical decomposition succeeds and returns
exactly the trailing rest. -/
theorem matchLit_of_shape {pre suf' body rest : List Char}
    (hb : body ≠ []) (hq : q ∉ body) :
    matchLit pre (q :: suf') (pre ++ body ++ q :: (suf' ++ rest)) =
      some rest := by
  have hA : ∀ c ∈ body, nq c = true := fun c hc =>
    nq_iff.mpr (fun e => hq (e ▸ hc))
  have e1 : pre ++ body ++ q :: (suf' ++ rest) =
      pre ++ (body ++ q :: (suf' ++ rest)) := by simp
  unfold matchLit
  rw [e1, dropLit_self]
  simp only [takeWhile_middle hA nq_q, dropWhile_middle hA nq_q]
  rw [if_neg (by simpa [List.isEmpty_iff] using hb)]
  show dropLit (q :: suf') (q :: (suf' ++ rest)) = some rest
  simpa [dropLit] using dropLit_self suf' rest

/-- Characterization of a rule-3 match: leading literal, a whitespace run,
`=`, a whitespace run, `'sk-proj-`, then a nonempty quote-free body; the
rest (not consumed) is empty or starts with the closing quote. -/
theorem match3_some {l rest : List Char} (h : match3 l = some rest) :
    ∃ w1 w2 body : List Char,
      (∀ c ∈ w1, isWS c = true) ∧ (∀ c ∈ w2, isWS c = true) ∧
      body ≠ [] ∧ q ∉ body ∧
      l = key3 ++ w1 ++ '=' :: (w2 ++ qsk ++ body ++ rest) ∧
      (rest = [] ∨ ∃ t, rest = q :: t) := by
  unfold match3 at h
  cases h1 : dropLit key3 l with
  | none => rw [h1] at h; exact absurd h (by simp)
  | some r1 =>
    rw [h1] at h
    simp only at h
    cases h2 : dropLit ['='] (r1.dropWhile isWS) with
    | none => rw [h2] at h; exact absurd h (by simp)
    | some r2 =>
      rw [h2] at h
      simp only at h
      cases h3 : dropLit qsk (r2.dropWhile isWS) with
      | none => rw [h3] at h; exact absurd h (by simp)
      | some r3 =>
        rw [h3] at h
        simp only at h
        by_cases hb : (r3.takeWhile nq).isEmpty
        · rw [if_pos hb] at h; exact absurd h (by simp)
        · rw [if_neg hb] at h
          have hrest : rest = r3.dropWhile nq := by
            cases h; rfl
          refine ⟨r1.takeWhile isWS, r2.takeWhile isWS, r3.takeWhile nq,
            takeWhile_mem, takeWhile_mem,
            by simpa [List.isEmpty_iff] using hb, ?_, ?_, ?_⟩
          · intro hqm
            have := takeWhile_mem q hqm
            simp [nq_q] at this
          · have e1 : l = key3 ++ r1 := dropLit_eq_some.mp h1
            have e2 : r1.dropWhile isWS = '=' :: r2 := by
              simpa using dropLit_eq_some.mp h2
            have e3 : r2.dropWhile isWS = qsk ++ r3 := dropLit_eq_some.mp h3
            have e4 : r1 = r1.takeWhile isWS ++ r1.dropWhile isWS :=
              (List.takeWhile_append_dropWhile isWS r1).symm
            have e5 : r2 = r2.takeWhile isWS ++ r2.dropWhile isWS :=
              (List.takeWhile_append_dropWhile isWS r2).symm
            have e6 : r3 = r3.takeWhile nq ++ r3.dropWhile nq :=
              (List.takeWhile_append_dropWhile nq r3).symm
            conv_lhs => rw [e1, e4, e2, e5, e3, e6, ← hrest]
            simp
          · cases hr : r3.dropWhile nq with
            | nil => left; rw [hrest, hr]
            | cons c t =>
              right
              have : nq c = false := dropWhile_head_false hr
              have : c = q := by
                by_contra hc
                simp [nq_iff.mpr hc] at this
              exact ⟨t, by rw [hrest, hr, this]⟩

/-- A rule-3 match on a canonical decomposition succeeds and returns
exactly the trailing rest. -/
theorem match3_of_shape {w1 w2 body rest : List Char}
    (hw1 : ∀ c ∈ w1, isWS c = true) (hw2 : ∀ c ∈ w2, isWS c = true)
    (hb : body ≠ []) (hq : q ∉ body)
    (hr : rest = [] ∨ ∃ t, rest = q :: t) :
    match3 (key3 ++ w1 ++ '=' :: (w2 ++ qsk ++ body ++ rest)) =
      some rest := by
  have hA : ∀ c ∈ body, nq c = true := fun c hc =>
    nq_iff.mpr (fun e => hq (e ▸ hc))
  have heq : isWS '=' = false := by decide
  have hqws : isWS q = false := by decide
  have e1 : key3 ++ w1 ++ '=' :: (w2 ++ qsk ++ body ++ rest) =
      key3 ++ (w1 ++ '=' :: (w2 ++ qsk ++ body ++ rest)) := by simp
  unfold match3
  rw [e1, dropLit_self]
  simp only [dropWhile_middle hw1 heq]
  show (match dropLit ['=']
      ('=' :: (w2 ++ qsk ++ body ++ rest)) with
    | none => none
    | some r2 =>
      match dropLit qsk (r2.dropWhile isWS) with
      | none => none
      | some r3 =>
        let bd := r3.takeWhile nq
        if bd.isEmpty then none else some (r3.dropWhile nq)) = some rest
  have e2 : dropLit ['='] ('=' :: (w2 ++ qsk ++ body ++ rest)) =
      some (w2 ++ qsk ++ body ++ rest) := by
    simp [dropLit]
  rw [e2]
  simp only
  have hqskq : qsk = q :: "sk-proj-".toList := by decide
  have e3 : (w2 ++ qsk ++ body ++ rest).dropWhile isWS =
      qsk ++ (body ++ rest) := by
    have : w2 ++ qsk ++ body ++ rest =
        w2 ++ q :: ("sk-proj-".toList ++ (body ++ rest)) := by
      rw [hqskq]; simp
    rw [this, dropWhile_middle hw2 hqws, hqskq]
    simp
  rw [e3, dropLit_self]
  simp only
  have e4 : (body ++ rest).takeWhile nq = body := by
    rcases hr with rfl | ⟨t, rfl⟩
    · rw [List.append_nil]; exact takeWhile_all hA
    · exact takeWhile_middle hA nq_q t
  have e5 : (body ++ rest).dropWhile nq = rest := by
    rcases hr with rfl | ⟨t, rfl⟩
    · rw [List.append_nil]; exact dropWhile_all hA
    · exact dropWhile_middle hA nq_q t
  rw [e4, e5, if_neg (by simpa [List.isEmpty_iff] using hb)]

/-- Splitting at a pivot character that occurs in neither prefix: two
decompositions of one string around such a pivot agree. -/
theorem append_pivot {c : Char} {A B C D : List Char}
    (h : A ++ c :: B = C ++ c :: D) (hA : c ∉ A) (hC : c ∉ C) :
    A = C ∧ B = D := by
  induction A generalizing C with
  | nil =>
    cases C with
    | nil => simpa using h
    | cons x xs =>
      exfalso
      simp only [List.nil_append, List.cons_append, List.cons.injEq] at h
      exact hC (h.1 ▸ List.mem_cons_self x xs)
  | cons a as ih =>
    cases C with
    | nil =>
      exfalso
      simp only [List.nil_append, List.cons_append, List.cons.injEq] at h
      exact hA (h.1.symm ▸ List.mem_cons_self a as)
    | cons x xs =>
      simp only [List.cons_append, List.cons.injEq] at h
      obtain ⟨rfl, h2⟩ := h
      have := ih h2 (fun hm => hA (List.mem_cons_of_mem _ hm))
        (fun hm => hC (List.mem_cons_of_mem _ hm))
      exact ⟨by rw [this.1], this.2⟩

/-- Every successful match consumes at least one character (rules 1, 2, 4). -/
theorem matchLit_lt {pre suf l rest : List Char}
    (h : matchLit pre suf l = some rest) : rest.length < l.length := by
  obtain ⟨body, hb, -, hl⟩ := matchLit_some h
  have : 1 ≤ body.length := by
    cases body with
    | nil => exact absurd rfl hb
    | cons _ _ => simp [List.length_cons, Nat.succ_le_succ]
  subst hl
  simp only [List.length_append]
  omega

/-- Every successful rule-3 match consumes at least one character. -/
theorem match3_lt {l rest : List Char} (h : match3 l = some rest) :
    rest.length < l.length := by
  obtain ⟨w1, w2, body, -, -, hb, -, hl, -⟩ := match3_some h
  have : 1 ≤ body.length := by
    cases body with
    | nil => exact absurd rfl hb
    | cons _ _ => simp [List.length_cons, Nat.succ_le_succ]
  subst hl
  simp only [List.length_append, List.length_cons]
  omega

theorem match1_lt {l rest : List Char} (h : match1 l = some rest) :
    rest.length < l.length := matchLit_lt h

theorem match2_lt {l rest : List Char} (h : match2 l = some rest) :
    rest.length < l.length := matchLit_lt h

theorem match4_lt {l rest : List Char} (h : match4 l = some rest) :
    rest.length < l.length := matchLit_lt h

theorem reSubF_nil (m : List Char → Option (List Char)) (r : List Char)
    (f : Nat) : reSubF m r f [] = [] := by
  cases f <;> rfl

theorem reSubF_succ_some {m : List Char → Option (List Char)}
    {r : List Char} {f : Nat} {c : Char} {cs rest : List Char}
    (h : m (c :: cs) = some rest) :
    reSubF m r (f + 1) (c :: cs) = r ++ reSubF m r f rest := by
  simp [reSubF, h]

theorem reSubF_succ_none {m : List Char → Option (List Char)}
    {r : List Char} {f : Nat} {c : Char} {cs : List Char}
    (h : m (c :: cs) = none) :
    reSubF m r (f + 1) (c :: cs) = c :: reSubF m r f cs := by
  simp [reSubF, h]

theorem isSome_false_eq_none {α : Type} {o : Option α}
    (h : o.isSome = false) : o = none := by
  cases o with
  | none => rfl
  | some _ => simp at h

/-- With enough fuel, `reSubF` computes `reSub`: fuel equal to the input
length suffices because every match consumes at least one character. -/
theorem reSubF_fuel {m : List Char → Option (List Char)}
    (hm : ∀ l r', m l = some r' → r'.length < l.length) (r : List Char) :
    ∀ (f : Nat) (l : List Char), l.length ≤ f →
      reSubF m r f l = reSub m r l := by
  intro f
  induction f using Nat.strong_induction_on with
  | _ f ih =>
    intro l hl
    cases f with
    | zero =>
      have : l = [] := List.length_eq_zero.mp (Nat.le_zero.mp hl)
      subst this
      rfl
    | succ f =>
      cases l with
      | nil => rw [reSubF_nil]; rfl
      | cons c cs =>
        have hcs : cs.length ≤ f := by
          simpa [List.length_cons] using hl
        cases hmc : m (c :: cs) with
        | some rest =>
          have hr : rest.length ≤ cs.length := by
            have := hm _ _ hmc
            simp only [List.length_cons] at this
            omega
          rw [reSubF_succ_some hmc, reSub, List.length_cons,
            reSubF_succ_some hmc]
          rw [ih f (Nat.lt_succ_self f) rest (Nat.le_trans hr hcs),
            ih cs.length (Nat.lt_succ_of_le hcs) rest hr]
        | none =>
          rw [reSubF_succ_none hmc, reSub, List.length_cons,
            reSubF_succ_none hmc]
          rw [ih f (Nat.lt_succ_self f) cs hcs]
          rfl

theorem reSub_nil (m : List Char → Option (List Char)) (r : List Char) :
    reSub m r [] = [] := rfl

theorem reSub_cons_none {m : List Char → Option (List Char)}
    {r : List Char} {c : Char} {cs : List Char} (h : m (c :: cs) = none) :
    reSub m r (c :: cs) = c :: reSub m r cs := by
  rw [reSub, List.length_cons, reSubF_succ_none h]
  rfl

theorem reSub_cons_some {m : List Char → Option (List Char)}
    (hm : ∀ l r', m l = some r' → r'.length < l.length)
    {r : List Char} {c : Char} {cs rest : List Char}
    (h : m (c :: cs) = some rest) :
    reSub m r (c :: cs) = r ++ reSub m r rest := by
  have hr : rest.length < cs.length + 1 := by simpa using hm _ _ h
  rw [reSub, List.length_cons, reSubF_succ_some h,
    reSubF_fuel hm r cs.length rest (by omega)]

theorem hasAnyMatch_cons (m : List Char → Option (List Char)) (c : Char)
    (cs : List Char) :
    hasAnyMatch m (c :: cs) = ((m (c :: cs)).isSome || hasAnyMatch m cs) :=
  rfl

theorem hasAnyMatch_false_iff {m : List Char → Option (List Char)}
    {l : List Char} :
    hasAnyMatch m l = false ↔ ∀ s, s <:+ l → m s = none := by
  induction l with
  | nil =>
    constructor
    · intro h s hs
      rw [List.suffix_nil.mp hs]
      exact isSome_false_eq_none h
    · intro h
      show (m []).isSome = false
      rw [h [] List.nil_suffix]
      rfl
  | cons c cs ih =>
    rw [hasAnyMatch_cons, Bool.or_eq_false_iff]
    constructor
    · rintro ⟨h1, h2⟩ s hs
      rcases List.suffix_cons_iff.mp hs with rfl | hs'
      · exact isSome_false_eq_none h1
      · exact ih.mp h2 s hs'
    · intro h
      refine ⟨?_, ih.mpr fun s hs => h s (hs.trans (List.suffix_cons c cs))⟩
      rw [h (c :: cs) List.suffix_rfl]
      rfl

/-- If the pattern matches nowhere in the input, the substitution is the
identity. -/
theorem reSub_id {m : List Char → Option (List Char)} {r : List Char} :
    ∀ {l : List Char}, hasAnyMatch m l = false → reSub m r l = l := by
  intro l
  induction l with
  | nil => intro _; rfl
  | cons c cs ih =>
    intro h
    rw [hasAnyMatch_cons, Bool.or_eq_false_iff] at h
    rw [reSub_cons_none (isSome_false_eq_none h.1), ih h.2]

/-- `reSub` realizes the `Scan` relation. -/
theorem scan_reSub {m : List Char → Option (List Char)}
    (hm : ∀ l r', m l = some r' → r'.length < l.length) (r : List Char)
    (l : List Char) : Scan m r l (reSub m r l) := by
  have key : ∀ (n : Nat) (l : List Char), l.length ≤ n →
      Scan m r l (reSub m r l) := by
    intro n
    induction n with
    | zero =>
      intro l hl
      have : l = [] := List.length_eq_zero.mp (Nat.le_zero.mp hl)
      subst this
      exact Scan.nil
    | succ n ih =>
      intro l hl
      cases l with
      | nil => exact Scan.nil
      | cons c cs =>
        have hcs : cs.length ≤ n := by
          simpa [List.length_cons] using hl
        cases hmc : m (c :: cs) with
        | some rest =>
          rw [reSub_cons_some hm hmc]
          have hr : rest.length ≤ n := by
            have := hm _ _ hmc
            simp only [List.length_cons] at this
            omega
          exact Scan.subst c cs rest _ hmc (ih rest hr)
        | none =>
          rw [reSub_cons_none hmc]
          exact Scan.copy c cs _ hmc (ih cs hcs)
  exact key l.length l le_rfl

theorem dropLit_head_ne {p c : Char} {ps cs : List Char} (h : c ≠ p) :
    dropLit (p :: ps) (c :: cs) = none := by
  simp [dropLit, h]

theorem pre1_split : pre1 = pre1A ++ q :: skant := by decide

theorem pre2_split : pre2 = pre2A ++ q :: skproj := by decide

theorem pre4_split : pre4 = pre4A ++ q :: skproj := by decide

theorem qsk_split : qsk = q :: skproj := by decide

theorem match1_head_ws {c : Char} {cs : List Char} (h : isWS c = true) :
    match1 (c :: cs) = none := by
  have hc : c ≠ 'a' := by rintro rfl; exact absurd h (by decide)
  show matchLit pre1 (q :: [',']) (c :: cs) = none
  unfold matchLit
  rw [show pre1 = 'a' :: pre1.tail by rfl, dropLit_head_ne hc]

theorem match2_head_ws {c : Char} {cs : List Char} (h : isWS c = true) :
    match2 (c :: cs) = none := by
  have hc : c ≠ 'o' := by rintro rfl; exact absurd h (by decide)
  show matchLit pre2 (q :: [',']) (c :: cs) = none
  unfold matchLit
  rw [show pre2 = 'o' :: pre2.tail by rfl, dropLit_head_ne hc]

theorem match3_head_ws {c : Char} {cs : List Char} (h : isWS c = true) :
    match3 (c :: cs) = none := by
  have hc : c ≠ 'O' := by rintro rfl; exact absurd h (by decide)
  unfold match3
  rw [show key3 = 'O' :: key3.tail by rfl, dropLit_head_ne hc]

theorem match4_head_ws {c : Char} {cs : List Char} (h : isWS c = true) :
    match4 (c :: cs) = none := by
  have hc : c ≠ 'c' := by rintro rfl; exact absurd h (by decide)
  show matchLit pre4 (q :: [';']) (c :: cs) = none
  unfold matchLit
  rw [show pre4 = 'c' :: pre4.tail by rfl, dropLit_head_ne hc]

/-- A match at the head of the buffer emits the replacement and continues
on the rest. -/
theorem reSub_head_match {m : List Char → Option (List Char)}
    (hm : ∀ l r', m l = some r' → r'.length < l.length)
    {r l rest : List Char} (h : m l = some rest) :
    reSub m r l = r ++ reSub m r rest := by
  cases l with
  | nil =>
    exfalso
    have := hm [] rest h
    simp at this
  | cons c cs => exact reSub_cons_some hm h

/-- If the matcher fails at every position inside `A` (even with `B`
appended), the scan copies `A` verbatim and continues on `B`. -/
theorem reSub_copy_all {m : List Char → Option (List Char)} {r : List Char}
    {A B : List Char}
    (hA : ∀ a : List Char, a <:+ A → a ≠ [] → m (a ++ B) = none) :
    reSub m r (A ++ B) = A ++ reSub m r B := by
  induction A with
  | nil => simp
  | cons c cs ih =>
    have h0 : m (c :: (cs ++ B)) = none := by
      have := hA (c :: cs) List.suffix_rfl (by simp)
      simpa using this
    rw [List.cons_append, reSub_cons_none h0,
      ih fun a ha hne => hA a (ha.trans (List.suffix_cons c cs)) hne]
    rfl

/-- Leading whitespace is copied verbatim by every rule whose pattern
starts with a non-whitespace character. -/
theorem reSub_ws_skip {m : List Char → Option (List Char)} {r : List Char}
    (hhead : ∀ (c : Char) (cs : List Char), isWS c = true →
      m (c :: cs) = none)
    {ind B : List Char} (hind : ∀ c ∈ ind, isWS c = true) :
    reSub m r (ind ++ B) = ind ++ reSub m r B := by
  refine reSub_copy_all fun a ha hne => ?_
  cases a with
  | nil => exact absurd rfl hne
  | cons c cs =>
    have hc : c ∈ ind := ha.subset (List.mem_cons_self c cs)
    exact hhead c (cs ++ B) (hind c hc)

theorem hasAnyMatch_true_iff {m : List Char → Option (List Char)}
    {l : List Char} :
    hasAnyMatch m l = true ↔ ∃ s, s <:+ l ∧ m s ≠ none := by
  rw [← Bool.not_eq_false, hasAnyMatch_false_iff]
  push_neg
  rfl

/-- Any part of the pattern yields an anchor: a rule 1/2/4 match contains
every infix of its literal head and of its literal suffix. -/
theorem matchLit_anchor {pre suf s rest X : List Char}
    (h : matchLit pre suf s = some rest)
    (hX : X <:+: pre ∨ X <:+: suf) : X <:+: s := by
  obtain ⟨body, -, -, he⟩ := matchLit_some h
  rcases hX with hx | hx
  · refine hx.trans ⟨[], body ++ suf ++ rest, ?_⟩
    rw [he]; simp
  · refine hx.trans ⟨pre ++ body, rest, ?_⟩
    rw [he]

/-- A rule-3 match contains `'sk-proj-`. -/
theorem match3_anchor {s rest : List Char} (h : match3 s = some rest) :
    qsk <:+: s := by
  obtain ⟨w1, w2, body, -, -, -, -, he, -⟩ := match3_some h
  refine ⟨key3 ++ w1 ++ ['='] ++ w2, body ++ rest, ?_⟩
  rw [he]; simp

/-- A pattern that always carries an anchor substring cannot match inside
text free of that anchor. -/
theorem hasAnyMatch_false_of_anchor {m : List Char → Option (List Char)}
    {anchor l : List Char}
    (hm : ∀ s rest, m s = some rest → anchor <:+: s)
    (h : ¬ anchor <:+: l) : hasAnyMatch m l = false := by
  by_contra hb
  rw [Bool.not_eq_false, hasAnyMatch_true_iff] at hb
  obtain ⟨s, hs, hsome⟩ := hb
  cases hms : m s with
  | none => exact hsome hms
  | some rest => exact h ((hm s rest hms).trans hs.isInfix)

theorem ws_ne_q {c : Char} (h : isWS c = true) : c ≠ q := by
  rintro rfl; exact absurd h (by decide)

theorem ws_ne_eq {c : Char} (h : isWS c = true) : c ≠ '=' := by
  rintro rfl; exact absurd h (by decide)

/-- An infix beginning with a character absent from `A` sits entirely in
`B`. -/
theorem not_infix_cons_of {x : Char} {X A B : List Char}
    (hA : ∀ c ∈ A, c ≠ x) (h : (x :: X) <:+: (A ++ B)) :
    (x :: X) <:+: B := by
  induction A with
  | nil => simpa using h
  | cons a as ih =>
    obtain ⟨s, t, he⟩ := h
    cases s with
    | nil =>
      exfalso
      simp only [List.nil_append, List.cons_append, List.cons.injEq] at he
      exact hA a (List.mem_cons_self a as) he.1.symm
    | cons b bs =>
      refine ih (fun c hc => hA c (List.mem_cons_of_mem a hc)) ⟨bs, t, ?_⟩
      simp only [List.cons_append, List.cons.injEq] at he
      exact he.2

/-- An infix beginning with the head character either continues as a
prefix of the tail or sits in the tail. -/
theorem infix_cons_split {x : Char} {X B : List Char}
    (h : (x :: X) <:+: (x :: B)) : X <+: B ∨ (x :: X) <:+: B := by
  obtain ⟨s, t, he⟩ := h
  cases s with
  | nil =>
    left
    simp only [List.nil_append, List.cons_append, List.cons.injEq] at he
    exact ⟨t, he.2⟩
  | cons b bs =>
    right
    simp only [List.cons_append, List.cons.injEq] at he
    exact ⟨bs, t, he.2⟩

theorem prefix_take_mono {l₁ l₂ : List Char} (h : l₁ <+: l₂) (n : Nat) :
    l₁.take n <+: l₂.take n := by
  obtain ⟨t, rfl⟩ := h
  rw [List.take_append_eq_append_take]
  exact List.prefix_append _ _

/-- Refute a prefix through a disagreement within the first `n`
characters. -/
theorem not_prefix_big {x C Z : List Char} {n : Nat}
    (hx : n ≤ x.length) (hc : n ≤ C.length) (hne : x.take n ≠ C.take n) :
    ¬ x <+: C ++ Z := by
  intro h
  have h1 : x.take n <+: (C ++ Z).take n := prefix_take_mono h n
  rw [List.take_append_of_le_length hc] at h1
  refine hne (h1.eq_of_length ?_)
  rw [List.length_take, List.length_take]
  omega

/-- Refutation scheme for an infix `q :: Z` of a text with exactly two
quotes, `A ++ q :: (C ++ (body ++ q :: D))`, all of `A`, `C`, `body`
quote-free: the infix can align with neither quote and cannot sit in
`D`. -/
theorem not_infix_two_q {Z A C body D : List Char}
    (hA : ∀ c ∈ A, c ≠ q) (hC : ∀ c ∈ C, c ≠ q) (hb : q ∉ body)
    (h1 : ¬ Z <+: (C ++ (body ++ q :: D)))
    (h2 : ¬ Z <+: D) (h3 : ¬ (q :: Z) <:+: D) :
    ¬ (q :: Z) <:+: (A ++ q :: (C ++ (body ++ q :: D))) := by
  intro h
  have h4 := not_infix_cons_of hA h
  rcases infix_cons_split h4 with hp | h5
  · exact h1 hp
  · rw [show C ++ (body ++ q :: D) = (C ++ body) ++ (q :: D) by simp] at h5
    have hmem : ∀ c ∈ C ++ body, c ≠ q := by
      intro c hc
      rcases List.mem_append.mp hc with hc' | hc'
      · exact hC c hc'
      · exact fun e => hb (e ▸ hc')
    have h6 := not_infix_cons_of hmem h5
    rcases infix_cons_split h6 with hp2 | h7
    · exact h2 hp2
    · exact h3 h7

theorem mem_append_ne {A B : List Char} {x : Char}
    (hA : ∀ c ∈ A, c ≠ x) (hB : ∀ c ∈ B, c ≠ x) :
    ∀ c ∈ A ++ B, c ≠ x := by
  intro c hc
  rcases List.mem_append.mp hc with h | h
  · exact hA c h
  · exact hB c h

theorem ws_all_ne {A : List Char} (hA : ∀ c ∈ A, isWS c = true)
    {x : Char} (hx : isWS x = false) : ∀ c ∈ A, c ≠ x := by
  intro c hc
  rintro rfl
  rw [hA c hc] at hx
  exact absurd hx (by simp)

/-- Idiom 1 (with any whitespace indentation and any quote-free nonempty
body) contains no occurrence of `'sk-proj-`. -/
theorem no_skproj_idiom1 {ind body : List Char}
    (hind : ∀ c ∈ ind, isWS c = true) (hq : q ∉ body) :
    ¬ (q :: skproj) <:+: (ind ++ pre1 ++ body ++ [q, ',']) := by
  have hshape : ind ++ pre1 ++ body ++ [q, ','] =
      (ind ++ pre1A) ++ q :: (skant ++ (body ++ q :: [','])) := by
    rw [pre1_split]; simp
  rw [hshape]
  refine not_infix_two_q (mem_append_ne (ws_all_ne hind (by decide))
    (by decide)) (by decide) hq ?_ (by decide) (by decide)
  exact not_prefix_big (n := 4) (by decide) (by decide) (by decide)

/-- Idiom 2 contains no occurrence of `'sk-ant-`. -/
theorem no_skant_idiom2 {ind body : List Char}
    (hind : ∀ c ∈ ind, isWS c = true) (hq : q ∉ body) :
    ¬ (q :: skant) <:+: (ind ++ pre2 ++ body ++ [q, ',']) := by
  have hshape : ind ++ pre2 ++ body ++ [q, ','] =
      (ind ++ pre2A) ++ q :: (skproj ++ (body ++ q :: [','])) := by
    rw [pre2_split]; simp
  rw [hshape]
  refine not_infix_two_q (mem_append_ne (ws_all_ne hind (by decide))
    (by decide)) (by decide) hq ?_ (by decide) (by decide)
  exact not_prefix_big (n := 4) (by decide) (by decide) (by decide)

/-- Idiom 2 contains no occurrence of `';`. -/
theorem no_qsemi_idiom2 {ind body : List Char}
    (hind : ∀ c ∈ ind, isWS c = true) (hq : q ∉ body) :
    ¬ (q :: [';']) <:+: (ind ++ pre2 ++ body ++ [q, ',']) := by
  have hshape : ind ++ pre2 ++ body ++ [q, ','] =
      (ind ++ pre2A) ++ q :: (skproj ++ (body ++ q :: [','])) := by
    rw [pre2_split]; simp
  rw [hshape]
  refine not_infix_two_q (mem_append_ne (ws_all_ne hind (by decide))
    (by decide)) (by decide) hq ?_ (by decide) (by decide)
  exact not_prefix_big (n := 1) (by decide) (by decide) (by decide)

/-- Idiom 4 contains no occurrence of `'sk-ant-`. -/
theorem no_skant_idiom4 {ind body : List Char}
    (hind : ∀ c ∈ ind, isWS c = true) (hq : q ∉ body) :
    ¬ (q :: skant) <:+: (ind ++ pre4 ++ body ++ [q, ';']) := by
  have hshape : ind ++ pre4 ++ body ++ [q, ';'] =
      (ind ++ pre4A) ++ q :: (skproj ++ (body ++ q :: [';'])) := by
    rw [pre4_split]; simp
  rw [hshape]
  refine not_infix_two_q (mem_append_ne (ws_all_ne hind (by decide))
    (by decide)) (by decide) hq ?_ (by decide) (by decide)
  exact not_prefix_big (n := 4) (by decide) (by decide) (by decide)

/-- Idiom 4 contains no occurrence of `',`. -/
theorem no_qcomma_idiom4 {ind body : List Char}
    (hind : ∀ c ∈ ind, isWS c = true) (hq : q ∉ body) :
    ¬ (q :: [',']) <:+: (ind ++ pre4 ++ body ++ [q, ';']) := by
  have hshape : ind ++ pre4 ++ body ++ [q, ';'] =
      (ind ++ pre4A) ++ q :: (skproj ++ (body ++ q :: [';'])) := by
    rw [pre4_split]; simp
  rw [hshape]
  refine not_infix_two_q (mem_append_ne (ws_all_ne hind (by decide))
    (by decide)) (by decide) hq ?_ (by decide) (by decide)
  exact not_prefix_big (n := 1) (by decide) (by decide) (by decide)

/-- Idiom 3 (any indentation and whitespace runs, quote-free nonempty
body, closing quote) contains no quote-anchored occurrence other than its
own `'sk-proj-`: refutation scheme parameterized by the anchor tail. -/
theorem no_anchor_idiom3 {ind w1 w2 body Z : List Char}
    (hind : ∀ c ∈ ind, isWS c = true) (hw1 : ∀ c ∈ w1, isWS c = true)
    (hw2 : ∀ c ∈ w2, isWS c = true) (hq : q ∉ body)
    (h1 : ¬ Z <+: (skproj ++ (body ++ q :: ([] : List Char))))
    (h2 : Z ≠ []) :
    ¬ (q :: Z) <:+:
      (ind ++ key3 ++ w1 ++ '=' :: (w2 ++ qsk ++ body ++ [q])) := by
  have hshape : ind ++ key3 ++ w1 ++ '=' :: (w2 ++ qsk ++ body ++ [q]) =
      (ind ++ key3 ++ w1 ++ ['='] ++ w2) ++
        q :: (skproj ++ (body ++ q :: ([] : List Char))) := by
    rw [qsk_split]; simp
  rw [hshape]
  have hA : ∀ c ∈ ind ++ key3 ++ w1 ++ ['='] ++ w2, c ≠ q := by
    refine mem_append_ne (mem_append_ne (mem_append_ne (mem_append_ne
      (ws_all_ne hind (by decide)) (by decide))
      (ws_all_ne hw1 (by decide))) (by decide))
      (ws_all_ne hw2 (by decide))
  refine not_infix_two_q hA (by decide) hq h1 ?_ ?_
  · intro hp
    exact h2 (List.prefix_nil.mp hp)
  · intro hinf
    simpa using List.infix_nil.mp hinf

theorem dropWhile_append_all {p : Char → Bool} {A B : List Char}
    (hA : ∀ c ∈ A, p c = true) :
    (A ++ B).dropWhile p = B.dropWhile p := by
  induction A with
  | nil => rfl
  | cons a as ih =>
    rw [List.cons_append, List.dropWhile_cons,
      if_pos (hA a (List.mem_cons_self a as))]
    exact ih fun c hc => hA c (List.mem_cons_of_mem a hc)

/-- Split a list at the first occurrence of a character. -/
theorem first_split {c : Char} {T : List Char} (h : c ∈ T) :
    ∃ T₁ T₂ : List Char, T = T₁ ++ c :: T₂ ∧ c ∉ T₁ := by
  induction T with
  | nil => simp at h
  | cons a as ih =>
    by_cases hac : a = c
    · exact ⟨[], as, by rw [hac]; rfl, by simp⟩
    · have hmem : c ∈ as := by
        rcases List.mem_cons.mp h with h' | h'
        · exact absurd h'.symm hac
        · exact h'
      obtain ⟨T₁, T₂, heq, hni⟩ := ih hmem
      refine ⟨a :: T₁, T₂, by rw [List.cons_append, heq], ?_⟩
      intro hm
      rcases List.mem_cons.mp hm with h' | h'
      · exact hac h'.symm
      · exact hni h'

theorem countq_zero {l : List Char} (h : ∀ c ∈ l, c ≠ q) :
    l.count q = 0 :=
  List.count_eq_zero.mpr fun hm => h q hm rfl

/-- Rule 3 matches nowhere inside idiom 4: its `'sk-proj-` does occur
there, but the text before that quote ends in `= ` (from `const apiKey = `),
which cannot be the tail `OPENAI_API_KEY\s*=\s*` of rule 3's pattern, and
the closing-quote region is too short. -/
theorem noM3_idiom4 {ind body : List Char}
    (hind : ∀ c ∈ ind, isWS c = true) (hq : q ∉ body) :
    hasAnyMatch match3 (ind ++ pre4 ++ body ++ [q, ';']) = false := by
  rw [hasAnyMatch_false_iff]
  intro s hs
  cases hm : match3 s with
  | none => rfl
  | some rest =>
    exfalso
    obtain ⟨w1, w2, body', hw1, hw2, hb', hq', he, hr⟩ := match3_some hm
    obtain ⟨T, hT⟩ := hs
    have h0 : T ++ s = ind ++ pre4 ++ body ++ [q, ';'] := hT
    rw [he, qsk_split, pre4_split] at h0
    have hEq : (T ++ (key3 ++ w1 ++ ['='] ++ w2)) ++
        q :: (skproj ++ (body' ++ rest)) =
        (ind ++ pre4A) ++ q :: ((skproj ++ body) ++ q :: [';']) := by
      simpa only [List.append_assoc, List.cons_append, List.singleton_append,
        List.nil_append] using h0
    have hX₁ : ∀ c ∈ ind ++ pre4A, c ≠ q :=
      mem_append_ne (ws_all_ne hind (by decide)) (by decide)
    have hK : ∀ c ∈ key3 ++ w1 ++ ['='] ++ w2, c ≠ q :=
      mem_append_ne (mem_append_ne (mem_append_ne (by decide)
        (ws_all_ne hw1 (by decide))) (by decide)) (ws_all_ne hw2 (by decide))
    by_cases hqT : q ∈ T
    · -- the scan start is right of the idiom's first quote: the matched
      -- text fits between the two quotes, too short for `'sk-proj-[^']+`.
      obtain ⟨T₁, T₂, rfl, hT₁⟩ := first_split hqT
      have hEq2 : T₁ ++ q :: ((T₂ ++ (key3 ++ w1 ++ ['='] ++ w2)) ++
          q :: (skproj ++ (body' ++ rest))) =
          (ind ++ pre4A) ++ q :: ((skproj ++ body) ++ q :: [';']) := by
        simpa only [List.append_assoc, List.cons_append,
          List.singleton_append, List.nil_append] using hEq
      have hcnt := congrArg (List.count q) hEq2
      simp only [List.count_append, List.count_cons_self] at hcnt
      have c1 : T₁.count q = 0 :=
        countq_zero fun c hc e => hT₁ (e ▸ hc)
      have c2 : (ind ++ pre4A).count q = 0 := countq_zero hX₁
      have c3 : (key3 ++ w1 ++ ['='] ++ w2).count q = 0 := countq_zero hK
      have c4 : (skproj ++ body).count q = 0 :=
        countq_zero (mem_append_ne (by decide)
          fun c hc e => hq (e ▸ hc))
      have c5 : ([';'] : List Char).count q = 0 := by decide
      have c6 : skproj.count q = 0 := by decide
      have c7 : body'.count q = 0 :=
        countq_zero fun c hc e => hq' (e ▸ hc)
      have hT₂0 : T₂.count q = 0 := by
        simp only [List.count_append] at hcnt c2 c3 c4
        omega
      have piv1 := append_pivot hEq2 hT₁ (fun hm => hX₁ q hm rfl)
      have hA2 : q ∉ T₂ ++ (key3 ++ w1 ++ ['='] ++ w2) := by
        intro hm
        rcases List.mem_append.mp hm with h' | h'
        · exact absurd h' (List.count_eq_zero.mp hT₂0)
        · exact hK q (by simpa using h') rfl
      have hC2 : q ∉ (skproj ++ body) :=
        List.count_eq_zero.mp c4
      have piv2 := append_pivot piv1.2 hA2 hC2
      have hlen := congrArg List.length piv2.2
      simp only [List.length_append] at hlen
      have : skproj.length = 8 := by decide
      simp [this] at hlen
      omega
    · -- the scan start is left of the idiom's quote: the text before the
      -- quote would have to end in `OPENAI_API_KEY\s*=\s*`, but it ends
      -- in `const apiKey = `, whose last non-blank block ends in `y`,
      -- not `Y`.
      have hTK : q ∉ T ++ (key3 ++ w1 ++ ['='] ++ w2) := by
        intro hm
        rcases List.mem_append.mp hm with h' | h'
        · exact hqT h'
        · exact hK q (by simpa using h') rfl
      have piv1 := append_pivot hEq hTK (fun hm => hX₁ q hm rfl)
      have hceq := congrArg (List.count '=') piv1.1
      simp only [List.count_append] at hceq
      have d1 : key3.count '=' = 0 := by decide
      have d2 : w1.count '=' = 0 :=
        List.count_eq_zero.mpr fun hm => ws_ne_eq (hw1 '=' hm) rfl
      have d3 : w2.count '=' = 0 :=
        List.count_eq_zero.mpr fun hm => ws_ne_eq (hw2 '=' hm) rfl
      have d4 : (['='] : List Char).count '=' = 1 := by decide
      have d5 : ind.count '=' = 0 :=
        List.count_eq_zero.mpr fun hm => ws_ne_eq (hind '=' hm) rfl
      have d6 : pre4A.count '=' = 1 := by decide
      have hT0 : T.count '=' = 0 := by omega
      have pre4A_eq : pre4A = "const apiKey ".toList ++ '=' :: [' '] := by
        decide
      have hEq3 : (T ++ (key3 ++ w1)) ++ '=' :: w2 =
          (ind ++ "const apiKey ".toList) ++ '=' :: [' '] := by
        have := piv1.1
        rw [pre4A_eq] at this
        simpa only [List.append_assoc, List.cons_append,
          List.singleton_append, List.nil_append] using this
      have hA3 : ('=' : Char) ∉ T ++ (key3 ++ w1) := by
        intro hm
        rcases List.mem_append.mp hm with h' | h'
        · exact absurd h' (List.count_eq_zero.mp hT0)
        · rcases List.mem_append.mp h' with h'' | h''
          · exact absurd h'' (List.count_eq_zero.mp d1)
          · exact ws_ne_eq (hw1 '=' h'') rfl
      have hC3 : ('=' : Char) ∉ ind ++ "const apiKey ".toList := by
        intro hm
        rcases List.mem_append.mp hm with h' | h'
        · exact ws_ne_eq (hind '=' h') rfl
        · exact absurd h' (by decide)
      have piv2 := append_pivot hEq3 hA3 hC3
      have e3 : ((T ++ (key3 ++ w1)).reverse).dropWhile isWS =
          ((ind ++ "const apiKey ".toList).reverse).dropWhile isWS := by
        rw [piv2.1]
      rw [List.reverse_append, List.reverse_append, List.append_assoc,
        dropWhile_append_all
          (fun c hc => hw1 c (List.mem_reverse.mp hc)),
        show key3.reverse = 'Y' :: "EK_IPA_IANEPO".toList by decide,
        List.cons_append, List.dropWhile_cons, if_neg (by decide)] at e3
      rw [List.reverse_append,
        show "const apiKey ".toList.reverse =
          ' ' :: "yeKipa tsnoc".toList by decide,
        List.cons_append, List.dropWhile_cons, if_pos (by decide),
        show ("yeKipa tsnoc".toList : List Char) =
          'y' :: "eKipa tsnoc".toList by decide,
        List.cons_append, List.dropWhile_cons, if_neg (by decide)] at e3
      injection e3 with h1 h2
      exact absurd h1 (by decide)

/-- Full pipeline on an idiom-1 line with leading whitespace: rule 1 fires,
rules 2-4 leave the result alone. -/
theorem redact_idiom1 {ind body : List Char}
    (hind : ∀ c ∈ ind, isWS c = true) (hb : body ≠ []) (hq : q ∉ body) :
    redact (ind ++ pre1 ++ body ++ [q, ',']) = ind ++ repl1 := by
  have hshape : ind ++ pre1 ++ body ++ [q, ','] =
      ind ++ (pre1 ++ body ++ [q, ',']) := by simp
  have hm1 : match1 (pre1 ++ body ++ [q, ',']) = some [] := by
    show matchLit pre1 (q :: [',']) (pre1 ++ body ++ [q, ',']) = some []
    have := @matchLit_of_shape pre1 [','] body [] hb hq
    simpa using this
  have p1 : reSub match1 repl1 (ind ++ (pre1 ++ body ++ [q, ','])) =
      ind ++ repl1 := by
    rw [reSub_ws_skip (fun _ _ h => match1_head_ws h) hind,
      reSub_head_match (fun _ _ h => match1_lt h) hm1, reSub_nil,
      List.append_nil]
  have p2 : reSub match2 repl2 (ind ++ repl1) = ind ++ repl1 := by
    rw [reSub_ws_skip (fun _ _ h => match2_head_ws h) hind,
      reSub_id (by decide : hasAnyMatch match2 repl1 = false)]
  have p3 : reSub match3 repl3 (ind ++ repl1) = ind ++ repl1 := by
    rw [reSub_ws_skip (fun _ _ h => match3_head_ws h) hind,
      reSub_id (by decide : hasAnyMatch match3 repl1 = false)]
  have p4 : reSub match4 repl4 (ind ++ repl1) = ind ++ repl1 := by
    rw [reSub_ws_skip (fun _ _ h => match4_head_ws h) hind,
      reSub_id (by decide : hasAnyMatch match4 repl1 = false)]
  unfold redact
  rw [hshape, p1, p2, p3, p4]

/-- Full pipeline on an idiom-2 line with leading whitespace: rule 1 is a
no-op, rule 2 fires, rules 3-4 leave the result alone. -/
theorem redact_idiom2 {ind body : List Char}
    (hind : ∀ c ∈ ind, isWS c = true) (hb : body ≠ []) (hq : q ∉ body) :
    redact (ind ++ pre2 ++ body ++ [q, ',']) = ind ++ repl2 := by
  have hshape : ind ++ pre2 ++ body ++ [q, ','] =
      ind ++ (pre2 ++ body ++ [q, ',']) := by simp
  have hm2 : match2 (pre2 ++ body ++ [q, ',']) = some [] := by
    show matchLit pre2 (q :: [',']) (pre2 ++ body ++ [q, ',']) = some []
    have := @matchLit_of_shape pre2 [','] body [] hb hq
    simpa using this
  have p1 : reSub match1 repl1 (ind ++ pre2 ++ body ++ [q, ',']) =
      ind ++ pre2 ++ body ++ [q, ','] := by
    refine reSub_id (hasAnyMatch_false_of_anchor
      (fun s rest h => matchLit_anchor h
        (Or.inl (show (q :: skant) <:+: pre1 by decide))) ?_)
    exact no_skant_idiom2 hind hq
  have p2 : reSub match2 repl2 (ind ++ (pre2 ++ body ++ [q, ','])) =
      ind ++ repl2 := by
    rw [reSub_ws_skip (fun _ _ h => match2_head_ws h) hind,
      reSub_head_match (fun _ _ h => match2_lt h) hm2, reSub_nil,
      List.append_nil]
  have p3 : reSub match3 repl3 (ind ++ repl2) = ind ++ repl2 := by
    rw [reSub_ws_skip (fun _ _ h => match3_head_ws h) hind,
      reSub_id (by decide : hasAnyMatch match3 repl2 = false)]
  have p4 : reSub match4 repl4 (ind ++ repl2) = ind ++ repl2 := by
    rw [reSub_ws_skip (fun _ _ h => match4_head_ws h) hind,
      reSub_id (by decide : hasAnyMatch match4 repl2 = false)]
  unfold redact
  rw [p1, hshape, p2, p3, p4]

/-- Full pipeline on an idiom-3 line with leading whitespace and arbitrary
whitespace around `=`: rules 1-2 are no-ops, rule 3 fires (leaving the
closing quote), rule 4 leaves the result alone. -/
theorem redact_idiom3 {ind w1 w2 body : List Char}
    (hind : ∀ c ∈ ind, isWS c = true) (hw1 : ∀ c ∈ w1, isWS c = true)
    (hw2 : ∀ c ∈ w2, isWS c = true) (hb : body ≠ []) (hq : q ∉ body) :
    redact (ind ++ key3 ++ w1 ++ '=' :: (w2 ++ qsk ++ body ++ [q])) =
      ind ++ repl3 ++ [q] := by
  have hshape : ind ++ key3 ++ w1 ++ '=' :: (w2 ++ qsk ++ body ++ [q]) =
      ind ++ (key3 ++ w1 ++ '=' :: (w2 ++ qsk ++ body ++ [q])) := by simp
  have hm3 : match3 (key3 ++ w1 ++ '=' :: (w2 ++ qsk ++ body ++ [q])) =
      some [q] := by
    have := @match3_of_shape w1 w2 body [q] hw1 hw2 hb hq
      (Or.inr ⟨[], rfl⟩)
    simpa using this
  have p1 : reSub match1 repl1
      (ind ++ key3 ++ w1 ++ '=' :: (w2 ++ qsk ++ body ++ [q])) =
      ind ++ key3 ++ w1 ++ '=' :: (w2 ++ qsk ++ body ++ [q]) := by
    refine reSub_id (hasAnyMatch_false_of_anchor
      (fun s rest h => matchLit_anchor h
        (Or.inl (show (q :: skant) <:+: pre1 by decide))) ?_)
    exact no_anchor_idiom3 hind hw1 hw2 hq
      (not_prefix_big (n := 4) (by decide) (by decide) (by decide))
      (by decide)
  have p2 : reSub match2 repl2
      (ind ++ key3 ++ w1 ++ '=' :: (w2 ++ qsk ++ body ++ [q])) =
      ind ++ key3 ++ w1 ++ '=' :: (w2 ++ qsk ++ body ++ [q]) := by
    refine reSub_id (hasAnyMatch_false_of_anchor
      (fun s rest h => matchLit_anchor h (Or.inr List.infix_rfl)) ?_)
    exact no_anchor_idiom3 hind hw1 hw2 hq
      (not_prefix_big (n := 1) (by decide) (by decide) (by decide))
      (by decide)
  have p3 : reSub match3 repl3
      (ind ++ (key3 ++ w1 ++ '=' :: (w2 ++ qsk ++ body ++ [q]))) =
      ind ++ (repl3 ++ [q]) := by
    rw [reSub_ws_skip (fun _ _ h => match3_head_ws h) hind,
      reSub_head_match (fun _ _ h => match3_lt h) hm3,
      reSub_id (by decide : hasAnyMatch match3 [q] = false)]
  have p4 : reSub match4 repl4 (ind ++ (repl3 ++ [q])) =
      ind ++ (repl3 ++ [q]) := by
    rw [reSub_ws_skip (fun _ _ h => match4_head_ws h) hind,
      reSub_id (by decide : hasAnyMatch match4 (repl3 ++ [q]) = false)]
  unfold redact
  rw [p1, p2, hshape, p3, p4]
  simp

/-- Full pipeline on an idiom-4 line with leading whitespace: rules 1-3
are no-ops, rule 4 fires. -/
theorem redact_idiom4 {ind body : List Char}
    (hind : ∀ c ∈ ind, isWS c = true) (hb : body ≠ []) (hq : q ∉ body) :
    redact (ind ++ pre4 ++ body ++ [q, ';']) = ind ++ repl4 := by
  have hshape : ind ++ pre4 ++ body ++ [q, ';'] =
      ind ++ (pre4 ++ body ++ [q, ';']) := by simp
  have hm4 : match4 (pre4 ++ body ++ [q, ';']) = some [] := by
    show matchLit pre4 (q :: [';']) (pre4 ++ body ++ [q, ';']) = some []
    have := @matchLit_of_shape pre4 [';'] body [] hb hq
    simpa using this
  have p1 : reSub match1 repl1 (ind ++ pre4 ++ body ++ [q, ';']) =
      ind ++ pre4 ++ body ++ [q, ';'] := by
    refine reSub_id (hasAnyMatch_false_of_anchor
      (fun s rest h => matchLit_anchor h
        (Or.inl (show (q :: skant) <:+: pre1 by decide))) ?_)
    exact no_skant_idiom4 hind hq
  have p2 : reSub match2 repl2 (ind ++ pre4 ++ body ++ [q, ';']) =
      ind ++ pre4 ++ body ++ [q, ';'] := by
    refine reSub_id (hasAnyMatch_false_of_anchor
      (fun s rest h => matchLit_anchor h (Or.inr List.infix_rfl)) ?_)
    exact no_qcomma_idiom4 hind hq
  have p3 : reSub match3 repl3 (ind ++ pre4 ++ body ++ [q, ';']) =
      ind ++ pre4 ++ body ++ [q, ';'] :=
    reSub_id (noM3_idiom4 hind hq)
  have p4 : reSub match4 repl4 (ind ++ (pre4 ++ body ++ [q, ';'])) =
      ind ++ repl4 := by
    rw [reSub_ws_skip (fun _ _ h => match4_head_ws h) hind,
      reSub_head_match (fun _ _ h => match4_lt h) hm4, reSub_nil,
      List.append_nil]
  unfold redact
  rw [p1, p2, p3, hshape, p4]

theorem tw_app {P : Char → Bool} {A : List Char} {d : Char}
    {ds : List Char} (w : List Char) (h : A.dropWhile P = d :: ds) :
    (A ++ w).takeWhile P = A.takeWhile P := by
  induction A with
  | nil => simp [List.dropWhile] at h
  | cons a as ih =>
    by_cases hp : P a = true
    · rw [List.dropWhile_cons, if_pos hp] at h
      rw [List.cons_append, List.takeWhile_cons, if_pos hp,
        List.takeWhile_cons, if_pos hp, ih h]
    · rw [List.cons_append, List.takeWhile_cons, if_neg hp,
        List.takeWhile_cons, if_neg hp]

theorem dw_app {P : Char → Bool} {A : List Char} {d : Char}
    {ds : List Char} (w : List Char) (h : A.dropWhile P = d :: ds) :
    (A ++ w).dropWhile P = d :: (ds ++ w) := by
  induction A with
  | nil => simp [List.dropWhile] at h
  | cons a as ih =>
    by_cases hp : P a = true
    · rw [List.dropWhile_cons, if_pos hp] at h
      rw [List.cons_append, List.dropWhile_cons, if_pos hp, ih h]
    · rw [List.dropWhile_cons, if_neg hp] at h
      cases h
      rw [List.cons_append, List.dropWhile_cons, if_neg hp]

theorem dropLitE_fail {p a : List Char} (h : dropLitE p a = .fail) :
    ∀ w, dropLit p (a ++ w) = none := by
  induction p generalizing a with
  | nil => simp [dropLitE] at h
  | cons x xs ih =>
    cases a with
    | nil => simp [dropLitE] at h
    | cons c cs =>
      intro w
      simp only [dropLitE] at h
      by_cases hc : c = x
      · rw [if_pos hc] at h
        rw [List.cons_append]
        simp only [dropLit]
        rw [if_pos hc]
        exact ih h w
      · rw [List.cons_append]
        simp only [dropLit]
        rw [if_neg hc]

theorem dropLitE_rest {p a x : List Char} (h : dropLitE p a = .rest x) :
    a = p ++ x := by
  induction p generalizing a with
  | nil =>
    simp only [dropLitE, LitRes.rest.injEq] at h
    simpa using h
  | cons y ys ih =>
    cases a with
    | nil => simp [dropLitE] at h
    | cons c cs =>
      simp only [dropLitE] at h
      by_cases hc : c = y
      · rw [if_pos hc] at h
        rw [List.cons_append, hc, ih h]
      · rw [if_neg hc] at h
        exact LitRes.noConfusion h

theorem matchLitSF_sound {pre suf a : List Char}
    (h : matchLitSF pre suf a = true) :
    ∀ w, matchLit pre suf (a ++ w) = none := by
  intro w
  cases hE : dropLitE pre a with
  | fail =>
    unfold matchLit
    rw [dropLitE_fail hE w]
  | out =>
    simp only [matchLitSF, hE] at h
    exact absurd h (by simp)
  | rest x =>
    simp only [matchLitSF, hE] at h
    have hax : a = pre ++ x := dropLitE_rest hE
    unfold matchLit
    rw [hax, List.append_assoc, dropLit_self]
    simp only
    cases hdw : x.dropWhile nq with
    | nil =>
      simp only [hdw] at h
      exact absurd h (by simp)
    | cons d ds =>
      simp only [hdw] at h
      rw [tw_app w hdw, dw_app w hdw]
      by_cases hbe : (x.takeWhile nq).isEmpty
      · rw [if_pos hbe]
      · rw [if_neg hbe]
        rw [if_neg hbe] at h
        cases hsE : dropLitE suf (d :: ds) with
        | fail => exact dropLitE_fail hsE w
        | out =>
          simp only [hsE] at h
          exact absurd h (by simp)
        | rest y =>
          simp only [hsE] at h
          exact absurd h (by simp)

theorem match3SF_sound {a : List Char} (h : match3SF a = true) :
    ∀ w, match3 (a ++ w) = none := by
  intro w
  cases hE : dropLitE key3 a with
  | fail =>
    unfold match3
    rw [dropLitE_fail hE w]
  | out =>
    simp only [match3SF, hE] at h
    exact absurd h (by simp)
  | rest x1 =>
    simp only [match3SF, hE] at h
    have hax : a = key3 ++ x1 := dropLitE_rest hE
    unfold match3
    rw [hax, List.append_assoc, dropLit_self]
    simp only
    cases hdw1 : x1.dropWhile isWS with
    | nil =>
      simp only [hdw1] at h
      exact absurd h (by simp)
    | cons d ds =>
      simp only [hdw1] at h
      rw [dw_app w hdw1]
      cases hE2 : dropLitE ['='] (d :: ds) with
      | fail =>
        simp only [hE2] at h
        have := dropLitE_fail hE2 w
        rw [List.cons_append] at this
        rw [this]
      | out =>
        simp only [hE2] at h
        exact absurd h (by simp)
      | rest x2 =>
        simp only [hE2] at h
        have hdd : d :: ds = '=' :: x2 := by
          simpa using dropLitE_rest hE2
        have : dropLit ['='] (d :: (ds ++ w)) = some (x2 ++ w) := by
          have h2 : d :: (ds ++ w) = '=' :: (x2 ++ w) := by
            have := congrArg (fun l => l ++ w) hdd
            simpa using this
          rw [h2]
          simp [dropLit]
        rw [this]
        simp only
        cases hdw2 : x2.dropWhile isWS with
        | nil =>
          simp only [hdw2] at h
          exact absurd h (by simp)
        | cons e es =>
          simp only [hdw2] at h
          rw [dw_app w hdw2]
          cases hE3 : dropLitE qsk (e :: es) with
          | fail =>
            simp only [hE3] at h
            have := dropLitE_fail hE3 w
            rw [List.cons_append] at this
            rw [this]
          | out =>
            simp only [hE3] at h
            exact absurd h (by simp)
          | rest x3 =>
            simp only [hE3] at h
            have hee : e :: es = qsk ++ x3 := dropLitE_rest hE3
            have : dropLit qsk (e :: (es ++ w)) = some (x3 ++ w) := by
              have h2 : e :: (es ++ w) = qsk ++ (x3 ++ w) := by
                have := congrArg (fun l => l ++ w) hee
                simpa using this
              rw [h2, dropLit_self]
            rw [this]
            simp only
            cases x3 with
            | nil =>
              simp only at h
              exact absurd h (by simp)
            | cons f fs =>
              simp only [decide_eq_true_iff] at h
              subst h
              have hnqq : ¬ (nq q = true) := by simp [nq_q]
              rw [List.cons_append, List.takeWhile_cons, if_neg hnqq]
              simp

/-- A generic lifting: if the surely-fails test holds on all nonempty
suffixes of `A`, every pattern occurrence starting inside `A` is
impossible whatever follows `A`. -/
theorem all_suffix_fail {m : List Char → Option (List Char)}
    {sf : List Char → Bool}
    (hsound : ∀ a, sf a = true → ∀ w, m (a ++ w) = none)
    {A : List Char}
    (hall : ∀ k, k < A.length → sf (A.drop k) = true) :
    ∀ a, a <:+ A → a ≠ [] → ∀ w, m (a ++ w) = none := by
  intro a ha hne w
  obtain ⟨t, rfl⟩ := ha
  have hdroppart : (t ++ a).drop t.length = a := List.drop_left t a
  have hlt : t.length < (t ++ a).length := by
    rw [List.length_append]
    cases a with
    | nil => exact absurd rfl hne
    | cons _ _ => simp [List.length_cons]
  have := hall t.length hlt
  rw [hdroppart] at this
  exact hsound a this w

theorem suffix_append_cases {s A X : List Char} (h : s <:+ A ++ X) :
    s <:+ X ∨ ∃ a, a <:+ A ∧ a ≠ [] ∧ s = a ++ X := by
  induction A with
  | nil => left; simpa using h
  | cons c A' ih =>
    rw [List.cons_append] at h
    rcases List.suffix_cons_iff.mp h with rfl | h'
    · right
      exact ⟨c :: A', List.suffix_rfl, by simp, by simp⟩
    · rcases ih h' with h1 | ⟨a, ha, hne, rfl⟩
      · left; exact h1
      · right; exact ⟨a, ha.trans (List.suffix_cons c A'), hne, rfl⟩

theorem hasAnyMatch_suffix {m : List Char → Option (List Char)}
    {s l : List Char} (hs : s <:+ l)
    (h : hasAnyMatch m l = false) : hasAnyMatch m s = false := by
  rw [hasAnyMatch_false_iff] at h ⊢
  exact fun x hx => h x (hx.trans hs)

/-- Gluing a block in front of clean text stays clean when no pattern
occurrence can start inside the block. -/
theorem clean_append {m : List Char → Option (List Char)}
    {A X : List Char}
    (hA : ∀ a, a <:+ A → a ≠ [] → ∀ w, m (a ++ w) = none)
    (hX : hasAnyMatch m X = false) : hasAnyMatch m (A ++ X) = false := by
  rw [hasAnyMatch_false_iff] at hX ⊢
  intro s hs
  rcases suffix_append_cases hs with h1 | ⟨a, ha, hne, rfl⟩
  · exact hX s h1
  · exact hA a ha hne X

/-- A scan output is the input itself (no match anywhere), or splits at
the first replacement. -/
theorem scan_cases {m : List Char → Option (List Char)} {r v w : List Char}
    (h : Scan m r v w) :
    w = v ∨ ∃ A u rest w2, v = A ++ u ∧ m u = some rest ∧
      w = A ++ (r ++ w2) ∧ Scan m r rest w2 := by
  induction h with
  | nil => exact Or.inl rfl
  | copy c cs t hm hsc ih =>
    rcases ih with rfl | ⟨A, u, rest, w2, hv, hmu, hw, hsc2⟩
    · exact Or.inl rfl
    · right
      exact ⟨c :: A, u, rest, w2, by rw [hv]; rfl, hmu,
        by rw [hw]; rfl, hsc2⟩
  | subst c cs rest t hm hsc =>
    right
    exact ⟨[], c :: cs, rest, t, rfl, hm, rfl, hsc⟩

theorem prefix_append_of_le {x C Z : List Char} (h : x <+: C ++ Z)
    (hl : x.length ≤ C.length) : x <+: C := by
  have h1 := prefix_take_mono h x.length
  rw [List.take_append_of_le_length hl, List.take_length] at h1
  exact h1.trans (List.take_prefix _ _)

theorem match1_head {u rest : List Char} (h : match1 u = some rest) :
    ∃ ds, u = 'a' :: ds := by
  obtain ⟨body, -, -, he⟩ := matchLit_some h
  refine ⟨pre1.tail ++ body ++ (q :: [',']) ++ rest, ?_⟩
  rw [he, show pre1 = 'a' :: pre1.tail by rfl]
  simp

theorem match2_head {u rest : List Char} (h : match2 u = some rest) :
    ∃ ds, u = 'o' :: ds := by
  obtain ⟨body, -, -, he⟩ := matchLit_some h
  refine ⟨pre2.tail ++ body ++ (q :: [',']) ++ rest, ?_⟩
  rw [he, show pre2 = 'o' :: pre2.tail by rfl]
  simp

theorem match3_head {u rest : List Char} (h : match3 u = some rest) :
    ∃ ds, u = 'O' :: ds := by
  obtain ⟨w1, w2, body, -, -, -, -, he, -⟩ := match3_some h
  refine ⟨key3.tail ++ w1 ++ '=' :: (w2 ++ qsk ++ body ++ rest), ?_⟩
  rw [he, show key3 = 'O' :: key3.tail by rfl]
  simp

theorem match4_head {u rest : List Char} (h : match4 u = some rest) :
    ∃ ds, u = 'c' :: ds := by
  obtain ⟨body, -, -, he⟩ := matchLit_some h
  refine ⟨pre4.tail ++ body ++ (q :: [';']) ++ rest, ?_⟩
  rw [he, show pre4 = 'c' :: pre4.tail by rfl]
  simp

theorem matchLit_suffix {pre suf u rest : List Char}
    (h : matchLit pre suf u = some rest) : rest <:+ u := by
  obtain ⟨body, -, -, he⟩ := matchLit_some h
  exact ⟨pre ++ body ++ suf, by rw [he]⟩

theorem match3_suffix {u rest : List Char} (h : match3 u = some rest) :
    rest <:+ u := by
  obtain ⟨w1, w2, body, -, -, -, -, he, -⟩ := match3_some h
  exact ⟨key3 ++ w1 ++ ['='] ++ w2 ++ qsk ++ body, by rw [he]; simp⟩

/-- Rule 3 succeeds whenever its literal structure is present and at
least one non-quote character follows `'sk-proj-`. -/
theorem match3_isSome {w1 w2 : List Char} {x : Char} {xs : List Char}
    (hw1 : ∀ c ∈ w1, isWS c = true) (hw2 : ∀ c ∈ w2, isWS c = true)
    (hx : x ≠ q) :
    (match3 (key3 ++ w1 ++ '=' :: (w2 ++ qsk ++ (x :: xs)))).isSome =
      true := by
  have hsplit : x :: xs =
      (x :: xs).takeWhile nq ++ (x :: xs).dropWhile nq :=
    (List.takeWhile_append_dropWhile nq (x :: xs)).symm
  have hbody : ((x :: xs).takeWhile nq) ≠ [] := by
    rw [List.takeWhile_cons, if_pos (nq_iff.mpr hx)]
    simp
  have hqb : q ∉ (x :: xs).takeWhile nq := fun hm => by
    have := takeWhile_mem q hm
    simp [nq_q] at this
  have hrest : (x :: xs).dropWhile nq = [] ∨
      ∃ t, (x :: xs).dropWhile nq = q :: t := by
    cases hdw : (x :: xs).dropWhile nq with
    | nil => exact Or.inl rfl
    | cons c t =>
      right
      have hnf := dropWhile_head_false hdw
      have hcq : c = q := by
        by_contra hne
        simp [nq_iff.mpr hne] at hnf
      exact ⟨t, by rw [hcq]⟩
  have hm := match3_of_shape hw1 hw2 hbody hqb hrest
  have harg : key3 ++ w1 ++ '=' :: (w2 ++ qsk ++ (x :: xs)) =
      key3 ++ w1 ++ '=' :: (w2 ++ qsk ++ (x :: xs).takeWhile nq ++
        (x :: xs).dropWhile nq) := by
    conv_lhs => rw [hsplit]
    simp
  rw [harg, hm]
  rfl

/-- Transfer of failure across one scan, rules 1/2/4: if a rule 1/2/4
pattern fails at the head of the original buffer, it still fails there
after the tail has gone through a substitution scan whose replacement has
a quote-free prefix, then a quote followed by a character that is neither
the rule's closing punctuation nor the secret prefix's first letter.  The
quote structure leaves no position for a new match: aligning the
pattern's opening quote with an original quote forces the original to
match too, and aligning it with a replacement quote runs into the
replacement's next character. -/
theorem transfer_matchLit
    {pre preA : List Char} {lit0 : Char} {lit' : List Char} {pc : Char}
    (hpre : pre = preA ++ q :: lit0 :: lit')
    (hpreA : ∀ c ∈ preA, c ≠ q) (hlitq : ∀ c ∈ lit0 :: lit', c ≠ q)
    {r RA : List Char} {c2 : Char} {RB2 : List Char}
    (hr : r = RA ++ q :: c2 :: RB2) (hRA : ∀ c ∈ RA, c ≠ q)
    (hc2pc : c2 ≠ pc) (hc2lit : c2 ≠ lit0)
    {rh : Char} {rtl : List Char} (hrh : r = rh :: rtl) (hrhpc : rh ≠ pc)
    {m' : List Char → Option (List Char)}
    {c : Char} {cs t' : List Char}
    (hnone : matchLit pre (q :: [pc]) (c :: cs) = none)
    (hscan : Scan m' r cs t') :
    matchLit pre (q :: [pc]) (c :: t') = none := by
  cases hmt : matchLit pre (q :: [pc]) (c :: t') with
  | none => rfl
  | some ρ =>
    exfalso
    obtain ⟨body, hb, hqb, he⟩ := matchLit_some hmt
    rcases scan_cases hscan with rfl | ⟨A, u, rest, w2, hcs, hmu, ht', hsc2⟩
    · rw [hmt] at hnone
      exact Option.noConfusion hnone
    · have hct : c :: t' = (c :: A) ++ (r ++ w2) := by
        rw [ht']; rfl
      have he2 : c :: t' =
          preA ++ q :: ((lit0 :: lit') ++ body ++ q :: pc :: ρ) := by
        rw [he, hpre]
        simp
      have hnpA : q ∉ preA := fun hm => hpreA q hm rfl
      have hnLB : q ∉ (lit0 :: lit') ++ body := by
        intro hm
        rcases List.mem_append.mp hm with h' | h'
        · exact hlitq q h' rfl
        · exact hqb h'
      by_cases hqs : q ∈ c :: A
      · obtain ⟨s1A, s1B, hsplit, hs1A⟩ := first_split hqs
        have he3 : c :: t' = s1A ++ q :: (s1B ++ (r ++ w2)) := by
          rw [hct, hsplit]
          simp
        have piv1 := append_pivot (he3.symm.trans he2) hs1A hnpA
        by_cases hqs1B : q ∈ s1B
        · obtain ⟨B₁, B₂, hsB, hB₁⟩ := first_split hqs1B
          cases B₂ with
          | nil =>
            have e4 : B₁ ++ q :: (r ++ w2) =
                ((lit0 :: lit') ++ body) ++ q :: (pc :: ρ) := by
              have h5 := piv1.2
              rw [hsB] at h5
              simpa only [List.append_assoc, List.cons_append,
                List.nil_append] using h5
            have piv2 := append_pivot e4 hB₁ hnLB
            have h6 := piv2.2
            rw [hrh, List.cons_append] at h6
            injection h6 with h7 h8
            exact hrhpc h7
          | cons d B₂' =>
            have e4 : B₁ ++ q :: ((d :: B₂') ++ (r ++ w2)) =
                ((lit0 :: lit') ++ body) ++ q :: (pc :: ρ) := by
              have h5 := piv1.2
              rw [hsB] at h5
              simpa only [List.append_assoc, List.cons_append] using h5
            have piv2 := append_pivot e4 hB₁ hnLB
            have h6 := piv2.2
            rw [List.cons_append] at h6
            injection h6 with h7 h8
            have horig : c :: cs =
                pre ++ body ++ q :: ([pc] ++ (B₂' ++ u)) := by
              have h9 : c :: cs = (c :: A) ++ u := by rw [hcs]; rfl
              rw [h9, hsplit, hsB, piv1.1, piv2.1, hpre, h7]
              simp
            have hcontra := @matchLit_of_shape pre [pc] body
              (B₂' ++ u) hb hqb
            rw [← horig] at hcontra
            rw [hnone] at hcontra
            exact Option.noConfusion hcontra
        · have e4 : (s1B ++ RA) ++ q :: ((c2 :: RB2) ++ w2) =
              ((lit0 :: lit') ++ body) ++ q :: (pc :: ρ) := by
            have h5 := piv1.2
            rw [hr] at h5
            simpa only [List.append_assoc, List.cons_append] using h5
          have hpA2 : q ∉ s1B ++ RA := by
            intro hm
            rcases List.mem_append.mp hm with h' | h'
            · exact hqs1B h'
            · exact hRA q h' rfl
          have piv2 := append_pivot e4 hpA2 hnLB
          have h6 := piv2.2
          rw [List.cons_append] at h6
          injection h6 with h7 h8
          exact hc2pc h7
      · have he3 : c :: t' =
            ((c :: A) ++ RA) ++ q :: ((c2 :: RB2) ++ w2) := by
          rw [hct, hr]
          simp
        have hpA2 : q ∉ (c :: A) ++ RA := by
          intro hm
          rcases List.mem_append.mp hm with h' | h'
          · exact hqs h'
          · exact hRA q h' rfl
        have piv1 := append_pivot (he3.symm.trans he2) hpA2 hnpA
        have h6 := piv1.2
        simp only [List.cons_append] at h6
        injection h6 with h7 h8
        exact hc2lit h7

/-- Transfer of failure across one scan, rule 3: if rule 3 fails at the
head of the original buffer, it still fails there after the tail has gone
through a substitution scan.  Here the replacement's first quote must not
be followed by `s`, no proper prefix of `sk-proj-` may end the
replacement's quote-free head, and every match of the scanned pattern
must start with a fixed non-quote character. -/
theorem transfer_match3
    {r RA : List Char} {c2 : Char} {RB2 : List Char}
    (hr : r = RA ++ q :: c2 :: RB2) (hRA : ∀ c ∈ RA, c ≠ q)
    (hc2s : c2 ≠ 's')
    (hdropf : ∀ d : Nat, d < 8 → ¬ ((skproj.drop d) <+: RA))
    {m' : List Char → Option (List Char)} {uh : Char}
    (hm'h : ∀ u rest, m' u = some rest → ∃ ds, u = uh :: ds)
    (huh : uh ≠ q)
    {c : Char} {cs t' : List Char}
    (hnone : match3 (c :: cs) = none) (hscan : Scan m' r cs t') :
    match3 (c :: t') = none := by
  cases hmt : match3 (c :: t') with
  | none => rfl
  | some ρ =>
    exfalso
    obtain ⟨w1, w2, body, hw1, hw2, hb, hqb, he, hρ⟩ := match3_some hmt
    rcases scan_cases hscan with rfl |
      ⟨A, u, rest, w2', hcs, hmu, ht', hsc2⟩
    · rw [hmt] at hnone
      exact Option.noConfusion hnone
    · have hct : c :: t' = (c :: A) ++ (r ++ w2') := by
        rw [ht']; rfl
      have hqsk : qsk = q :: skproj := qsk_split
      have he2 : c :: t' =
          (key3 ++ w1 ++ ['='] ++ w2) ++ q :: ((skproj ++ body) ++ ρ) := by
        rw [he, hqsk]
        simp
      have hKn : q ∉ key3 ++ w1 ++ ['='] ++ w2 := by
        intro hm
        exact (mem_append_ne (mem_append_ne (mem_append_ne (by decide)
          (ws_all_ne hw1 (by decide))) (by decide))
          (ws_all_ne hw2 (by decide))) q hm rfl
      have hSB : q ∉ skproj ++ body := by
        intro hm
        rcases List.mem_append.mp hm with h' | h'
        · exact absurd h' (by decide)
        · exact hqb h'
      by_cases hqs : q ∈ c :: A
      · obtain ⟨s1A, s1B, hsplit, hs1A⟩ := first_split hqs
        have he3 : c :: t' = s1A ++ q :: (s1B ++ (r ++ w2')) := by
          rw [hct, hsplit]
          simp
        have piv1 := append_pivot (he3.symm.trans he2) hs1A hKn
        rcases hρ with rfl | ⟨ρ', rfl⟩
        · have h5 := piv1.2
          rw [List.append_nil] at h5
          have hmem : q ∈ skproj ++ body := by
            rw [← h5]
            have hqr : q ∈ r := by rw [hr]; simp
            exact List.mem_append.mpr (Or.inr
              (List.mem_append.mpr (Or.inl hqr)))
          exact hSB hmem
        · by_cases hqs1B : q ∈ s1B
          · obtain ⟨B₁, B₂, hsB, hB₁⟩ := first_split hqs1B
            have e4 : B₁ ++ q :: (B₂ ++ (r ++ w2')) =
                (skproj ++ body) ++ q :: ρ' := by
              have h5 := piv1.2
              rw [hsB] at h5
              simpa only [List.append_assoc, List.cons_append] using h5
            have piv2 := append_pivot e4 hB₁ hSB
            cases body with
            | nil => exact hb rfl
            | cons b0 btail =>
              have hb0 : b0 ≠ q := by
                rintro rfl
                exact hqb (List.mem_cons_self _ _)
              have horig : c :: cs = key3 ++ w1 ++ '=' ::
                  (w2 ++ qsk ++ (b0 :: (btail ++ q :: (B₂ ++ u)))) := by
                have h9 : c :: cs = (c :: A) ++ u := by rw [hcs]; rfl
                rw [h9, hsplit, hsB, piv1.1, piv2.1, hqsk]
                simp
              have hcontra := @match3_isSome w1 w2 b0
                (btail ++ q :: (B₂ ++ u)) hw1 hw2 hb0
              rw [← horig] at hcontra
              rw [hnone] at hcontra
              exact absurd hcontra (by simp)
          · have e4 : (s1B ++ RA) ++ q :: ((c2 :: RB2) ++ w2') =
                (skproj ++ body) ++ q :: ρ' := by
              have h5 := piv1.2
              rw [hr] at h5
              simpa only [List.append_assoc, List.cons_append] using h5
            have hpA2 : q ∉ s1B ++ RA := by
              intro hm
              rcases List.mem_append.mp hm with h' | h'
              · exact hqs1B h'
              · exact hRA q h' rfl
            have piv2 := append_pivot e4 hpA2 hSB
            rcases Nat.lt_or_ge s1B.length 8 with hlt | hge
            · have hpfx : s1B <+: skproj := by
                apply prefix_append_of_le
                · exact piv2.1 ▸ List.prefix_append s1B RA
                · have : skproj.length = 8 := by decide
                  omega
              obtain ⟨dt, hdt⟩ := hpfx
              have hdtdrop : dt = skproj.drop s1B.length := by
                rw [← hdt, List.drop_left]
              have hra : dt <+: RA := by
                have h7 : s1B ++ RA = s1B ++ (dt ++ body) := by
                  rw [piv2.1, ← hdt]
                  simp
                have h8 := List.append_cancel_left h7
                exact h8 ▸ List.prefix_append dt body
              exact hdropf s1B.length hlt (hdtdrop ▸ hra)
            · have hpfx : skproj <+: s1B := by
                apply prefix_append_of_le (Z := RA)
                · exact piv2.1 ▸ List.prefix_append skproj body
                · have : skproj.length = 8 := by decide
                  omega
              obtain ⟨s1B', hs1B'⟩ := hpfx
              cases s1B' with
              | nil =>
                obtain ⟨ds, hu⟩ := hm'h u rest hmu
                have horig : c :: cs = key3 ++ w1 ++ '=' ::
                    (w2 ++ qsk ++ (uh :: ds)) := by
                  have h9 : c :: cs = (c :: A) ++ u := by rw [hcs]; rfl
                  rw [h9, hsplit, piv1.1, ← hs1B', hu, hqsk]
                  simp
                have hcontra := @match3_isSome w1 w2 uh ds hw1 hw2 huh
                rw [← horig] at hcontra
                rw [hnone] at hcontra
                exact absurd hcontra (by simp)
              | cons d1 dtail =>
                have hd1 : d1 ≠ q := by
                  rintro rfl
                  refine hqs1B ?_
                  rw [← hs1B']
                  exact List.mem_append.mpr (Or.inr
                    (List.mem_cons_self _ _))
                have horig : c :: cs = key3 ++ w1 ++ '=' ::
                    (w2 ++ qsk ++ (d1 :: (dtail ++ u))) := by
                  have h9 : c :: cs = (c :: A) ++ u := by rw [hcs]; rfl
                  rw [h9, hsplit, piv1.1, ← hs1B', hqsk]
                  simp
                have hcontra := @match3_isSome w1 w2 d1
                  (dtail ++ u) hw1 hw2 hd1
                rw [← horig] at hcontra
                rw [hnone] at hcontra
                exact absurd hcontra (by simp)
      · have he3 : c :: t' =
            ((c :: A) ++ RA) ++ q :: ((c2 :: RB2) ++ w2') := by
          rw [hct, hr]
          simp
        have hpA2 : q ∉ (c :: A) ++ RA := by
          intro hm
          rcases List.mem_append.mp hm with h' | h'
          · exact hqs h'
          · exact hRA q h' rfl
        have piv1 := append_pivot (he3.symm.trans he2) hpA2 hKn
        have h6 := piv1.2
        rw [show skproj = 's' :: "k-proj-".toList by decide] at h6
        simp only [List.cons_append, List.append_assoc] at h6
        injection h6 with h7 h8
        exact hc2s h7

/-- A scan by a matcher over its own output leaves no match of that
matcher anywhere in the output: every position of the output is either a
junction into the replacement text, where the pattern surely fails, or a
copied character, where the original failure transfers across the scan of
the tail. -/
theorem scan_self_gen {m : List Char → Option (List Char)} {r : List Char}
    (hnil : m [] = none)
    (hjunc : ∀ a, a <:+ r → a ≠ [] → ∀ w, m (a ++ w) = none)
    (htr : ∀ c cs t', m (c :: cs) = none → Scan m r cs t' →
      m (c :: t') = none)
    {v w : List Char} (hscan : Scan m r v w) :
    hasAnyMatch m w = false := by
  induction hscan with
  | nil =>
    show (m []).isSome = false
    rw [hnil]
    rfl
  | copy c cs t hm hsc ih =>
    rw [hasAnyMatch_cons, Bool.or_eq_false_iff]
    refine ⟨?_, ih⟩
    rw [htr c cs t hm hsc]
    rfl
  | subst c cs rest t hm hsc ih =>
    exact clean_append hjunc ih

/-- A scan by one rule preserves the absence of matches of another rule,
provided the other rule surely fails at every junction into the scanned
rule's replacement text and its failures transfer across the scan. -/
theorem scan_preserve_gen {m m' : List Char → Option (List Char)}
    {r : List Char}
    (hjunc : ∀ a, a <:+ r → a ≠ [] → ∀ w, m (a ++ w) = none)
    (hsuf : ∀ u rest, m' u = some rest → rest <:+ u)
    (htr : ∀ c cs t', m (c :: cs) = none → Scan m' r cs t' →
      m (c :: t') = none)
    {v w : List Char} (hscan : Scan m' r v w)
    (hv : hasAnyMatch m v = false) :
    hasAnyMatch m w = false := by
  induction hscan with
  | nil => exact hv
  | copy c cs t hm hsc ih =>
    rw [hasAnyMatch_cons, Bool.or_eq_false_iff] at hv
    rw [hasAnyMatch_cons, Bool.or_eq_false_iff]
    refine ⟨?_, ih hv.2⟩
    rw [htr c cs t (isSome_false_eq_none hv.1) hsc]
    rfl
  | subst c cs rest t hm hsc ih =>
    have hrest : hasAnyMatch m rest = false :=
      hasAnyMatch_suffix (hsuf _ _ hm) hv
    exact clean_append hjunc (ih hrest)

theorem match1_nil : match1 [] = none := by decide

theorem match2_nil : match2 [] = none := by decide

theorem match3_nil : match3 [] = none := by decide

theorem match4_nil : match4 [] = none := by decide

theorem pre1_qsplit : pre1 = pre1A ++ q :: 's' :: "k-ant-".toList := by
  decide

theorem pre2_qsplit : pre2 = pre2A ++ q :: 's' :: "k-proj-".toList := by
  decide

theorem pre4_qsplit : pre4 = pre4A ++ q :: 's' :: "k-proj-".toList := by
  decide

theorem repl1_qsplit : repl1 = pre1A ++ q :: q :: [','] := by decide

theorem repl2_qsplit : repl2 = pre2A ++ q :: q :: [','] := by decide

theorem repl3_qsplit : repl3 = "OPENAI_API_KEY=os.environ.get(".toList ++
    q :: 'O' :: "PENAI_API_KEY', '')".toList := by decide

theorem repl4_qsplit : repl4 =
    "const apiKey = process.env.OPENAI_API_KEY || ".toList ++
    q :: q :: [';'] := by decide

theorem repl1_head : repl1 =
    'a' :: "nthropicApiKey: process.env.ANTHROPIC_API_KEY || '',".toList :=
  by decide

theorem repl2_head : repl2 =
    'o' :: "penaiApiKey: process.env.OPENAI_API_KEY || '',".toList := by
  decide

theorem repl3_head : repl3 =
    'O' :: "PENAI_API_KEY=os.environ.get('OPENAI_API_KEY', '')".toList :=
  by decide

theorem repl4_head : repl4 =
    'c' :: "onst apiKey = process.env.OPENAI_API_KEY || '';".toList := by
  decide

theorem tr11 : ∀ c cs t', match1 (c :: cs) = none →
    Scan match1 repl1 cs t' → match1 (c :: t') = none :=
  fun c cs t' hnone hscan =>
    transfer_matchLit pre1_qsplit (by decide) (by decide) repl1_qsplit
      (by decide) (by decide) (by decide) repl1_head (by decide)
      hnone hscan

theorem tr12 : ∀ c cs t', match1 (c :: cs) = none →
    Scan match2 repl2 cs t' → match1 (c :: t') = none :=
  fun c cs t' hnone hscan =>
    transfer_matchLit pre1_qsplit (by decide) (by decide) repl2_qsplit
      (by decide) (by decide) (by decide) repl2_head (by decide)
      hnone hscan

theorem tr13 : ∀ c cs t', match1 (c :: cs) = none →
    Scan match3 repl3 cs t' → match1 (c :: t') = none :=
  fun c cs t' hnone hscan =>
    transfer_matchLit pre1_qsplit (by decide) (by decide) repl3_qsplit
      (by decide) (by decide) (by decide) repl3_head (by decide)
      hnone hscan

theorem tr14 : ∀ c cs t', match1 (c :: cs) = none →
    Scan match4 repl4 cs t' → match1 (c :: t') = none :=
  fun c cs t' hnone hscan =>
    transfer_matchLit pre1_qsplit (by decide) (by decide) repl4_qsplit
      (by decide) (by decide) (by decide) repl4_head (by decide)
      hnone hscan

theorem tr22 : ∀ c cs t', match2 (c :: cs) = none →
    Scan match2 repl2 cs t' → match2 (c :: t') = none :=
  fun c cs t' hnone hscan =>
    transfer_matchLit pre2_qsplit (by decide) (by decide) repl2_qsplit
      (by decide) (by decide) (by decide) repl2_head (by decide)
      hnone hscan

theorem tr23 : ∀ c cs t', match2 (c :: cs) = none →
    Scan match3 repl3 cs t' → match2 (c :: t') = none :=
  fun c cs t' hnone hscan =>
    transfer_matchLit pre2_qsplit (by decide) (by decide) repl3_qsplit
      (by decide) (by decide) (by decide) repl3_head (by decide)
      hnone hscan

theorem tr24 : ∀ c cs t', match2 (c :: cs) = none →
    Scan match4 repl4 cs t' → match2 (c :: t') = none :=
  fun c cs t' hnone hscan =>
    transfer_matchLit pre2_qsplit (by decide) (by decide) repl4_qsplit
      (by decide) (by decide) (by decide) repl4_head (by decide)
      hnone hscan

theorem tr33 : ∀ c cs t', match3 (c :: cs) = none →
    Scan match3 repl3 cs t' → match3 (c :: t') = none :=
  fun c cs t' hnone hscan =>
    transfer_match3 repl3_qsplit (by decide) (by decide) (by decide)
      (fun u rest h => match3_head h) (by decide) hnone hscan

theorem tr34 : ∀ c cs t', match3 (c :: cs) = none →
    Scan match4 repl4 cs t' → match3 (c :: t') = none :=
  fun c cs t' hnone hscan =>
    transfer_match3 repl4_qsplit (by decide) (by decide) (by decide)
      (fun u rest h => match4_head h) (by decide) hnone hscan

theorem tr44 : ∀ c cs t', match4 (c :: cs) = none →
    Scan match4 repl4 cs t' → match4 (c :: t') = none :=
  fun c cs t' hnone hscan =>
    transfer_matchLit pre4_qsplit (by decide) (by decide) repl4_qsplit
      (by decide) (by decide) (by decide) repl4_head (by decide)
      hnone hscan

theorem junc11 : ∀ a, a <:+ repl1 → a ≠ [] → ∀ w,
    match1 (a ++ w) = none :=
  @all_suffix_fail match1 (matchLitSF pre1 (q :: [',']))
    (fun a ha w => matchLitSF_sound ha w) repl1 (by decide)

theorem junc12 : ∀ a, a <:+ repl2 → a ≠ [] → ∀ w,
    match1 (a ++ w) = none :=
  @all_suffix_fail match1 (matchLitSF pre1 (q :: [',']))
    (fun a ha w => matchLitSF_sound ha w) repl2 (by decide)

theorem junc13 : ∀ a, a <:+ repl3 → a ≠ [] → ∀ w,
    match1 (a ++ w) = none :=
  @all_suffix_fail match1 (matchLitSF pre1 (q :: [',']))
    (fun a ha w => matchLitSF_sound ha w) repl3 (by decide)

theorem junc14 : ∀ a, a <:+ repl4 → a ≠ [] → ∀ w,
    match1 (a ++ w) = none :=
  @all_suffix_fail match1 (matchLitSF pre1 (q :: [',']))
    (fun a ha w => matchLitSF_sound ha w) repl4 (by decide)

theorem junc22 : ∀ a, a <:+ repl2 → a ≠ [] → ∀ w,
    match2 (a ++ w) = none :=
  @all_suffix_fail match2 (matchLitSF pre2 (q :: [',']))
    (fun a ha w => matchLitSF_sound ha w) repl2 (by decide)

theorem junc23 : ∀ a, a <:+ repl3 → a ≠ [] → ∀ w,
    match2 (a ++ w) = none :=
  @all_suffix_fail match2 (matchLitSF pre2 (q :: [',']))
    (fun a ha w => matchLitSF_sound ha w) repl3 (by decide)

theorem junc24 : ∀ a, a <:+ repl4 → a ≠ [] → ∀ w,
    match2 (a ++ w) = none :=
  @all_suffix_fail match2 (matchLitSF pre2 (q :: [',']))
    (fun a ha w => matchLitSF_sound ha w) repl4 (by decide)

theorem junc33 : ∀ a, a <:+ repl3 → a ≠ [] → ∀ w,
    match3 (a ++ w) = none :=
  @all_suffix_fail match3 match3SF
    (fun a ha w => match3SF_sound ha w) repl3 (by decide)

theorem junc34 : ∀ a, a <:+ repl4 → a ≠ [] → ∀ w,
    match3 (a ++ w) = none :=
  @all_suffix_fail match3 match3SF
    (fun a ha w => match3SF_sound ha w) repl4 (by decide)

theorem junc44 : ∀ a, a <:+ repl4 → a ≠ [] → ∀ w,
    match4 (a ++ w) = none :=
  @all_suffix_fail match4 (matchLitSF pre4 (q :: [';']))
    (fun a ha w => matchLitSF_sound ha w) repl4 (by decide)

/-- The consumed part of a `matchLit` match: the literal head, the body
and the two-character suffix; a newline stands in it exactly when the body
has one, provided the literals are newline-free. -/
theorem matchLit_consumed {pre : List Char} {pc : Char} {l rest : List Char}
    (hpre : ('\n' : Char) ∉ pre) (hpc : pc ≠ '\n')
    (h : matchLit pre (q :: [pc]) l = some rest) :
    ∃ body : List Char, body ≠ [] ∧ q ∉ body ∧
      matchedOn (matchLit pre (q :: [pc])) l =
        some (pre ++ body ++ [q, pc]) ∧
      (('\n' : Char) ∈ pre ++ body ++ [q, pc] ↔ ('\n' : Char) ∈ body) := by
  obtain ⟨body, hb, hq, he⟩ := matchLit_some h
  refine ⟨body, hb, hq, ?_, ?_⟩
  · have hlen : l.length - rest.length =
        (pre ++ body ++ [q, pc]).length := by
      rw [he]
      simp only [List.length_append, List.length_cons, List.length_nil]
      omega
    rw [matchedOn, h]
    show some (l.take (l.length - rest.length)) =
      some (pre ++ body ++ [q, pc])
    rw [hlen, he]
    exact congrArg some (List.take_left _ _)
  · simp only [List.mem_append]
    constructor
    · rintro ((hn | hn) | hn)
      · exact absurd hn hpre
      · exact hn
      · exfalso
        rcases List.mem_cons.mp hn with h | h
        · exact absurd h (by decide)
        · rcases List.mem_cons.mp h with h2 | h2
          · exact (Ne.symm hpc) h2
          · simp at h2
    · exact fun hn => Or.inl (Or.inr hn)

/-- The consumed part of a rule-3 match: the fixed literals are
newline-free, so a newline stands in the consumed text exactly when one of
the two whitespace runs or the body has one. -/
theorem match3_consumed {l rest : List Char} (h : match3 l = some rest) :
    ∃ w1 w2 body : List Char,
      (∀ c ∈ w1, isWS c = true) ∧ (∀ c ∈ w2, isWS c = true) ∧
      body ≠ [] ∧ q ∉ body ∧
      matchedOn match3 l =
        some (key3 ++ w1 ++ '=' :: (w2 ++ qsk ++ body)) ∧
      (('\n' : Char) ∈ key3 ++ w1 ++ '=' :: (w2 ++ qsk ++ body) ↔
        (('\n' : Char) ∈ w1 ∨ ('\n' : Char) ∈ w2 ∨
         ('\n' : Char) ∈ body)) := by
  obtain ⟨w1, w2, body, hw1, hw2, hb, hq, he, hr⟩ := match3_some h
  refine ⟨w1, w2, body, hw1, hw2, hb, hq, ?_, ?_⟩
  · have hassoc : l =
        (key3 ++ w1 ++ '=' :: (w2 ++ qsk ++ body)) ++ rest := by
      rw [he]; simp
    have hlen : l.length - rest.length =
        (key3 ++ w1 ++ '=' :: (w2 ++ qsk ++ body)).length := by
      rw [hassoc]
      simp only [List.length_append, List.length_cons]
      omega
    rw [matchedOn, h]
    show some (l.take (l.length - rest.length)) =
      some (key3 ++ w1 ++ '=' :: (w2 ++ qsk ++ body))
    rw [hlen, hassoc]
    exact congrArg some (List.take_left _ _)
  · constructor
    · intro hn
      rcases List.mem_append.mp hn with h1 | h2
      · rcases List.mem_append.mp h1 with hk | hw
        · exact absurd hk (by decide)
        · exact Or.inl hw
      · rcases List.mem_cons.mp h2 with he' | h3
        · exact absurd he' (by decide)
        · rcases List.mem_append.mp h3 with h4 | hb'
          · rcases List.mem_append.mp h4 with hw | hqk
            · exact Or.inr (Or.inl hw)
            · exact absurd hqk (by decide)
          · exact Or.inr (Or.inr hb')
    · intro hn
      rcases hn with hw | hw | hb'
      · exact List.mem_append.mpr (Or.inl (List.mem_append.mpr (Or.inr hw)))
      · exact List.mem_append.mpr (Or.inr (List.mem_cons.mpr (Or.inr
          (List.mem_append.mpr (Or.inl (List.mem_append.mpr (Or.inl hw)))))))
      · exact List.mem_append.mpr (Or.inr (List.mem_cons.mpr (Or.inr
          (List.mem_append.mpr (Or.inr hb')))))

/-- C2 (counterexample): the substring consumed by a rule-1 substitution
can contain a newline — with a newline inside the quoted secret body the
whole line, newline included, is one match (Python's `[^']` matches a
newline). -/
theorem C2_counterexample :
    matchedOn match1
      "anthropicApiKey: process.env.ANTHROPIC_API_KEY || 'sk-ant-a\nb',".toList
      = some
      "anthropicApiKey: process.env.ANTHROPIC_API_KEY || 'sk-ant-a\nb',".toList
      ∧ ('\n' : Char) ∈
      "anthropicApiKey: process.env.ANTHROPIC_API_KEY || 'sk-ant-a\nb',".toList
      := ⟨by decide, by decide⟩

/-- C2 (amended): a match never spans a line boundary through the fixed
pattern text — the consumed substring of a rule 1, 2 or 4 match contains a
newline exactly when the matched secret body does, and that of a rule 3
match exactly when one of its whitespace runs or its secret body does. -/
theorem C2_theorem :
    (∀ l rest, match1 l = some rest →
      ∃ body : List Char, body ≠ [] ∧ q ∉ body ∧
        matchedOn match1 l = some (pre1 ++ body ++ [q, ',']) ∧
        (('\n' : Char) ∈ pre1 ++ body ++ [q, ','] ↔
          ('\n' : Char) ∈ body)) ∧
    (∀ l rest, match2 l = some rest →
      ∃ body : List Char, body ≠ [] ∧ q ∉ body ∧
        matchedOn match2 l = some (pre2 ++ body ++ [q, ',']) ∧
        (('\n' : Char) ∈ pre2 ++ body ++ [q, ','] ↔
          ('\n' : Char) ∈ body)) ∧
    (∀ l rest, match3 l = some rest →
      ∃ w1 w2 body : List Char,
        (∀ c ∈ w1, isWS c = true) ∧ (∀ c ∈ w2, isWS c = true) ∧
        body ≠ [] ∧ q ∉ body ∧
        matchedOn match3 l =
          some (key3 ++ w1 ++ '=' :: (w2 ++ qsk ++ body)) ∧
        (('\n' : Char) ∈ key3 ++ w1 ++ '=' :: (w2 ++ qsk ++ body) ↔
          (('\n' : Char) ∈ w1 ∨ ('\n' : Char) ∈ w2 ∨
           ('\n' : Char) ∈ body))) ∧
    (∀ l rest, match4 l = some rest →
      ∃ body : List Char, body ≠ [] ∧ q ∉ body ∧
        matchedOn match4 l = some (pre4 ++ body ++ [q, ';']) ∧
        (('\n' : Char) ∈ pre4 ++ body ++ [q, ';'] ↔
          ('\n' : Char) ∈ body)) :=
  ⟨fun _ _ h => matchLit_consumed (by decide) (by decide) h,
   fun _ _ h => matchLit_consumed (by decide) (by decide) h,
   fun _ _ h => match3_consumed h,
   fun _ _ h => matchLit_consumed (by decide) (by decide) h⟩

/-- C2 witness: the amended theorem applied to a concrete rule-1 match. -/
theorem C2_witness :
    ∃ body : List Char, body ≠ [] ∧ q ∉ body ∧
      matchedOn match1
        "anthropicApiKey: process.env.ANTHROPIC_API_KEY || 'sk-ant-abc',".toList
        = some (pre1 ++ body ++ [q, ',']) ∧
      (('\n' : Char) ∈ pre1 ++ body ++ [q, ','] ↔ ('\n' : Char) ∈ body) :=
  C2_theorem.1 _ [] (by decide)

/-- C1: the claim's expected output for the input line
`OPENAI_API_KEY = 'sk-proj-qwerty'` is wrong: the program does not return
exactly `OPENAI_API_KEY=os.environ.get('OPENAI_API_KEY', '')` — the
closing quote of the original line survives after the replacement text
(rule 3's pattern ends at the greedy `[^']+` and never consumes the
closing quote). -/
theorem C1_counterexample :
    redact "OPENAI_API_KEY = 'sk-proj-qwerty'".toList ≠
      "OPENAI_API_KEY=os.environ.get('OPENAI_API_KEY', '')".toList := by
  decide

/-- C1 (amended): for the exact input line `OPENAI_API_KEY = 'sk-proj-qwerty'`,
redact returns the replacement text followed by the original line's closing
quote: `OPENAI_API_KEY=os.environ.get('OPENAI_API_KEY', '')'`. -/
theorem C1_theorem :
    redact "OPENAI_API_KEY = 'sk-proj-qwerty'".toList =
      "OPENAI_API_KEY=os.environ.get('OPENAI_API_KEY', '')'".toList := by
  decide

/-- C4: non-matching passthrough — if none of the four rules' patterns
matches anywhere in the input, redact returns the input unchanged. -/
theorem C4_theorem (l : List Char)
    (h1 : hasAnyMatch match1 l = false) (h2 : hasAnyMatch match2 l = false)
    (h3 : hasAnyMatch match3 l = false)
    (h4 : hasAnyMatch match4 l = false) : redact l = l := by
  unfold redact
  rw [reSub_id h1, reSub_id h2, reSub_id h3, reSub_id h4]

/-- C4 witness: the spec's example 5, `const greeting = "hello world";`,
matches no rule and passes through byte-for-byte. -/
theorem C4_witness :
    redact "const greeting = \"hello world\";".toList =
      "const greeting = \"hello world\";".toList :=
  C4_theorem _ (by decide) (by decide) (by decide) (by decide)

/-- C5 (counterexample): the claim fails for one-character bodies that
happen to occur in the fixed replacement text — substituting the body `a`
into idiom 1 yields an output that does contain `a`. -/
theorem C5_counterexample :
    (['a'] : List Char) ≠ [] ∧ q ∉ (['a'] : List Char) ∧
    ['a'] <:+: redact (pre1 ++ ['a'] ++ [q, ',']) :=
  ⟨by decide, by decide, by decide⟩

/-- C5 (amended): for each of the four idioms and every nonempty
quote-free key body, the output of redact on the idiom line does not
contain the body — unless the body already occurs in the rule's fixed
replacement text (for rule 3, the replacement plus the surviving closing
quote). -/
theorem C5_theorem :
    (∀ body : List Char, body ≠ [] → q ∉ body → ¬ body <:+: repl1 →
      ¬ body <:+: redact (pre1 ++ body ++ [q, ','])) ∧
    (∀ body : List Char, body ≠ [] → q ∉ body → ¬ body <:+: repl2 →
      ¬ body <:+: redact (pre2 ++ body ++ [q, ','])) ∧
    (∀ w1 w2 body : List Char, (∀ c ∈ w1, isWS c = true) →
      (∀ c ∈ w2, isWS c = true) → body ≠ [] → q ∉ body →
      ¬ body <:+: (repl3 ++ [q]) →
      ¬ body <:+: redact (key3 ++ w1 ++ '=' :: (w2 ++ qsk ++ body ++ [q]))) ∧
    (∀ body : List Char, body ≠ [] → q ∉ body → ¬ body <:+: repl4 →
      ¬ body <:+: redact (pre4 ++ body ++ [q, ';'])) := by
  refine ⟨?_, ?_, ?_, ?_⟩
  · intro body hb hq hni
    have h := @redact_idiom1 [] body (by simp) hb hq
    simp only [List.nil_append] at h
    rw [h]
    exact hni
  · intro body hb hq hni
    have h := @redact_idiom2 [] body (by simp) hb hq
    simp only [List.nil_append] at h
    rw [h]
    exact hni
  · intro w1 w2 body hw1 hw2 hb hq hni
    have h := @redact_idiom3 [] w1 w2 body (by simp) hw1 hw2 hb hq
    simp only [List.nil_append] at h
    rw [h]
    exact hni
  · intro body hb hq hni
    have h := @redact_idiom4 [] body (by simp) hb hq
    simp only [List.nil_append] at h
    rw [h]
    exact hni

/-- C5 witness: a realistic secret body disappears from the idiom-1
output. -/
theorem C5_witness :
    ¬ "SECRETBODY123".toList <:+:
      redact (pre1 ++ "SECRETBODY123".toList ++ [q, ',']) :=
  C5_theorem.1 _ (by decide) (by decide) (by decide)

/-- C6: structural preservation on each idiom line — the leading
whitespace indentation is copied unchanged and the rest of the output is
the rule's replacement, which keeps the variable name and the trailing
comma/semicolon; only the quoted secret substring changes (rule 3 also
keeps the original closing quote). -/
theorem C6_theorem :
    (∀ ind body : List Char, (∀ c ∈ ind, isWS c = true) → body ≠ [] →
      q ∉ body →
      redact (ind ++ pre1 ++ body ++ [q, ',']) = ind ++ repl1) ∧
    (∀ ind body : List Char, (∀ c ∈ ind, isWS c = true) → body ≠ [] →
      q ∉ body →
      redact (ind ++ pre2 ++ body ++ [q, ',']) = ind ++ repl2) ∧
    (∀ ind w1 w2 body : List Char, (∀ c ∈ ind, isWS c = true) →
      (∀ c ∈ w1, isWS c = true) → (∀ c ∈ w2, isWS c = true) →
      body ≠ [] → q ∉ body →
      redact (ind ++ key3 ++ w1 ++ '=' :: (w2 ++ qsk ++ body ++ [q])) =
        ind ++ repl3 ++ [q]) ∧
    (∀ ind body : List Char, (∀ c ∈ ind, isWS c = true) → body ≠ [] →
      q ∉ body →
      redact (ind ++ pre4 ++ body ++ [q, ';']) = ind ++ repl4) :=
  ⟨fun _ _ h1 h2 h3 => redact_idiom1 h1 h2 h3,
   fun _ _ h1 h2 h3 => redact_idiom2 h1 h2 h3,
   fun _ _ _ _ h1 h2 h3 h4 h5 => redact_idiom3 h1 h2 h3 h4 h5,
   fun _ _ h1 h2 h3 => redact_idiom4 h1 h2 h3⟩

/-- C6 witness: the spec's example 1, indented by two spaces. -/
theorem C6_witness :
    redact ("  ".toList ++ pre1 ++ "ABC123xyz".toList ++ [q, ',']) =
      "  ".toList ++ repl1 :=
  C6_theorem.1 _ _ (by decide) (by decide) (by decide)

/-- C7: redact is exactly the sequential composition of the four global
substitutions, in the fixed order rule 1, rule 2, rule 3, rule 4, each
applied (by `reSub`, which replaces every non-overlapping match) to the
output of the previous rule. -/
theorem C7_theorem :
    ruleList.length = 4 ∧
    (∀ l : List Char,
      redact l = ruleList.foldl (fun acc p => reSub p.1 p.2 acc) l) ∧
    (∀ l : List Char,
      redact l = reSub match4 repl4 (reSub match3 repl3
        (reSub match2 repl2 (reSub match1 repl1 l)))) :=
  ⟨rfl, fun _ => rfl, fun _ => rfl⟩

/-- C8: no replacement string embeds a credential — none of the four
replacement texts contains a substring `sk-ant-` or `sk-proj-` followed by
a key body (indeed none contains `sk-ant-` or `sk-proj-` at all). -/
theorem C8_theorem : ∀ body : List Char,
    (¬ ("sk-ant-".toList ++ body) <:+: repl1 ∧
     ¬ ("sk-proj-".toList ++ body) <:+: repl1) ∧
    (¬ ("sk-ant-".toList ++ body) <:+: repl2 ∧
     ¬ ("sk-proj-".toList ++ body) <:+: repl2) ∧
    (¬ ("sk-ant-".toList ++ body) <:+: repl3 ∧
     ¬ ("sk-proj-".toList ++ body) <:+: repl3) ∧
    (¬ ("sk-ant-".toList ++ body) <:+: repl4 ∧
     ¬ ("sk-proj-".toList ++ body) <:+: repl4) := by
  intro body
  refine ⟨⟨?_, ?_⟩, ⟨?_, ?_⟩, ⟨?_, ?_⟩, ⟨?_, ?_⟩⟩ <;>
  · intro h
    exact absurd ((List.prefix_append _ body).isInfix.trans h) (by decide)

/-- C9: noninterference from the environment — the program's output
depends only on the stdin text; two runs with equal stdin and arbitrary
different environments produce identical output, and that output is
`redact stdin`. -/
theorem C9_theorem :
    ∀ (env1 env2 : List (String × String)) (stdin : List Char),
      runProgram env1 stdin = runProgram env2 stdin ∧
      runProgram env1 stdin = redact stdin :=
  fun _ _ _ => ⟨rfl, rfl⟩

/-- C10: every rule requires at least one character after its
`sk-ant-`/`sk-proj-` prefix — an idiom carrying the bare prefix with an
empty body is matched by no rule (whatever follows), and the concrete line
`const apiKey = 'sk-proj-';` passes through redact unchanged. -/
theorem C10_theorem :
    (∀ B : List Char, match1 (pre1 ++ q :: ',' :: B) = none) ∧
    (∀ B : List Char, match2 (pre2 ++ q :: ',' :: B) = none) ∧
    (∀ B : List Char,
      match3 (key3 ++ ' ' :: '=' :: ' ' :: (qsk ++ q :: B)) = none) ∧
    (∀ B : List Char, match4 (pre4 ++ q :: ';' :: B) = none) ∧
    hasAnyMatch match1 "const apiKey = 'sk-proj-';".toList = false ∧
    hasAnyMatch match2 "const apiKey = 'sk-proj-';".toList = false ∧
    hasAnyMatch match3 "const apiKey = 'sk-proj-';".toList = false ∧
    hasAnyMatch match4 "const apiKey = 'sk-proj-';".toList = false ∧
    redact "const apiKey = 'sk-proj-';".toList =
      "const apiKey = 'sk-proj-';".toList := by
  refine ⟨?_, ?_, ?_, ?_, by decide, by decide, by decide, by decide,
    by decide⟩
  · intro B
    cases hm : match1 (pre1 ++ q :: ',' :: B) with
    | none => rfl
    | some rest =>
      exfalso
      obtain ⟨body, hb, hq, he⟩ := matchLit_some hm
      rw [List.append_assoc, List.append_assoc] at he
      have he2 := List.append_cancel_left he
      cases body with
      | nil => exact hb rfl
      | cons b bs =>
        simp only [List.cons_append, List.cons.injEq] at he2
        exact hq (he2.1 ▸ List.mem_cons_self b bs)
  · intro B
    cases hm : match2 (pre2 ++ q :: ',' :: B) with
    | none => rfl
    | some rest =>
      exfalso
      obtain ⟨body, hb, hq, he⟩ := matchLit_some hm
      rw [List.append_assoc, List.append_assoc] at he
      have he2 := List.append_cancel_left he
      cases body with
      | nil => exact hb rfl
      | cons b bs =>
        simp only [List.cons_append, List.cons.injEq] at he2
        exact hq (he2.1 ▸ List.mem_cons_self b bs)
  · intro B
    cases hm : match3 (key3 ++ ' ' :: '=' :: ' ' :: (qsk ++ q :: B)) with
    | none => rfl
    | some rest =>
      exfalso
      obtain ⟨w1, w2, body, hw1, hw2, hb, hq, he, -⟩ := match3_some hm
      rw [List.append_assoc] at he
      have he2 := List.append_cancel_left he
      -- he2 : ' ' :: '=' :: ' ' :: (qsk ++ q :: B) = w1 ++ '=' :: (...)
      have hpiv : ([' '] : List Char) ++ '=' :: (' ' :: (qsk ++ q :: B)) =
          w1 ++ '=' :: (w2 ++ qsk ++ body ++ rest) := by
        simpa using he2
      have hw1eq : ('=' : Char) ∉ w1 := fun hm' => by
        have := hw1 '=' hm'
        simp [isWS, wsChars] at this
      have step1 := append_pivot hpiv (by decide) hw1eq
      -- step1.2 : ' ' :: (qsk ++ q :: B) = w2 ++ qsk ++ body ++ rest
      have hqsk : qsk = q :: "sk-proj-".toList := by decide
      have hpiv2 : ([' '] : List Char) ++ q ::
          ("sk-proj-".toList ++ q :: B) =
          w2 ++ q :: ("sk-proj-".toList ++ (body ++ rest)) := by
        have := step1.2
        rw [hqsk] at this
        simpa using this
      have hw2q : q ∉ w2 := fun hm' => by
        have := hw2 q hm'
        simp [isWS, wsChars, q] at this
      have step2 := append_pivot hpiv2 (by decide) hw2q
      have he3 := List.append_cancel_left step2.2
      cases body with
      | nil => exact hb rfl
      | cons b bs =>
        simp only [List.cons_append, List.cons.injEq] at he3
        exact hq (he3.1 ▸ List.mem_cons_self b bs)
  · intro B
    cases hm : match4 (pre4 ++ q :: ';' :: B) with
    | none => rfl
    | some rest =>
      exfalso
      obtain ⟨body, hb, hq, he⟩ := matchLit_some hm
      rw [List.append_assoc, List.append_assoc] at he
      have he2 := List.append_cancel_left he
      cases body with
      | nil => exact hb rfl
      | cons b bs =>
        simp only [List.cons_append, List.cons.injEq] at he2
        exact hq (he2.1 ▸ List.mem_cons_self b bs)

/-- C3: Idempotence — for every input string `s`,
`redact (redact s) = redact s`.  After one pass of the pipeline the
output contains no match of any of the four patterns (each rule's
replacement text cannot re-create a match at any junction, and a rule's
failure at a copied position survives every later substitution pass), so
the second application of `redact` is the identity on its own output. -/
theorem C3_theorem (s : List Char) : redact (redact s) = redact s := by
  have s1 : Scan match1 repl1 s (reSub match1 repl1 s) :=
    scan_reSub (fun l r' h => match1_lt h) repl1 s
  have s2 := scan_reSub (fun l r' h => match2_lt h) repl2
    (reSub match1 repl1 s)
  have s3 := scan_reSub (fun l r' h => match3_lt h) repl3
    (reSub match2 repl2 (reSub match1 repl1 s))
  have s4 := scan_reSub (fun l r' h => match4_lt h) repl4
    (reSub match3 repl3 (reSub match2 repl2 (reSub match1 repl1 s)))
  have hs2 : ∀ u rest, match2 u = some rest → rest <:+ u :=
    fun u rest h => matchLit_suffix h
  have hs3 : ∀ u rest, match3 u = some rest → rest <:+ u :=
    fun u rest h => match3_suffix h
  have hs4 : ∀ u rest, match4 u = some rest → rest <:+ u :=
    fun u rest h => matchLit_suffix h
  have c1 : hasAnyMatch match1 (redact s) = false := by
    have h1 := scan_self_gen match1_nil junc11 tr11 s1
    have h2 := scan_preserve_gen junc12 hs2 tr12 s2 h1
    have h3 := scan_preserve_gen junc13 hs3 tr13 s3 h2
    exact scan_preserve_gen junc14 hs4 tr14 s4 h3
  have c2 : hasAnyMatch match2 (redact s) = false := by
    have h2 := scan_self_gen match2_nil junc22 tr22 s2
    have h3 := scan_preserve_gen junc23 hs3 tr23 s3 h2
    exact scan_preserve_gen junc24 hs4 tr24 s4 h3
  have c3 : hasAnyMatch match3 (redact s) = false := by
    have h3 := scan_self_gen match3_nil junc33 tr33 s3
    exact scan_preserve_gen junc34 hs4 tr34 s4 h3
  have c4 : hasAnyMatch match4 (redact s) = false :=
    scan_self_gen match4_nil junc44 tr44 s4
  show reSub match4 repl4 (reSub match3 repl3 (reSub match2 repl2
    (reSub match1 repl1 (redact s)))) = redact s
  rw [reSub_id c1, reSub_id c2, reSub_id c3, reSub_id c4]

end Redactor
